import Mathlib

/-!
# Verification of the context cancellation tree

A shallow embedding of the `context` package found in this repository
(`WithCancel`, `WithDeadline`, `WithValue`, `propagateCancel`,
`cancelCtx.cancel`, `timerCtx.cancel`, `parentCancelCtx`, `removeChild`,
`value`), together with proofs of the specified properties.

The heap of `cancelCtx`/`timerCtx` nodes is modelled as a list indexed by
allocation order; Go channels are modelled by identifiers together with a
set of closed channel identifiers (`closedchan` is identifier `0`).
Recursive operations take an explicit fuel argument; exhausting the fuel
produces the distinguished failure `Failure.fuelOut`, so every theorem
stated about an `Except.ok` result speaks about a completed execution of
the code.  Go `panic` is modelled as `Failure.panicked` with the panic
message from the source.
-/

namespace Ctxt

/-- Node identifiers: positions in the allocation list. -/
abbrev NodeId := Nat

/-- Channel identifiers.  `0` is the reusable closed channel `closedchan`. -/
abbrev ChanId := Nat

/-- The reusable closed channel (`var closedchan = make(chan struct{})`,
closed in `init`). -/
def closedchan : ChanId := 0

/-- Error values that can sit in a context's `err` slot.  `Canceled` and
`DeadlineExceeded` are the two errors produced by the package itself;
`other` stands for any further non-nil error value. -/
inductive GoError where
  | canceled
  | deadlineExceeded
  | other (n : Nat)
deriving DecidableEq, Repr

/-- Lookup keys.  `cancelCtxKey` is the private sentinel `&cancelCtxKey`;
`user n` stands for any other comparable key value. -/
inductive Key where
  | cancelCtxKey
  | user (n : Nat)
deriving DecidableEq, Repr

/-- Values stored in or returned from `Value`: either an ordinary user
value or the `*cancelCtx` reference that `cancelCtx.Value` returns for the
sentinel key. -/
inductive GoVal where
  | user (n : Nat)
  | cancelCtxRef (id : NodeId)
deriving DecidableEq, Repr

/-- A `Context` value.  `background` and `todo` are the two `emptyCtx`
roots; `cancelRef id` is a `*cancelCtx` or `*timerCtx` pointer into the
heap; `valueRef key val parent` is an (immutable) `*valueCtx`. -/
inductive Ctx where
  | background
  | todo
  | cancelRef (id : NodeId)
  | valueRef (key : Key) (val : Option GoVal) (parent : Ctx)
deriving DecidableEq, Repr

/-- Whether a heap node is a plain `cancelCtx` or a `timerCtx`
(a `timerCtx` embeds a `cancelCtx`; both live in one node). -/
inductive NodeKind where
  | cancelK
  | timerK
deriving DecidableEq, Repr

/-- One heap node: the mutable state of a `cancelCtx`, plus the
`timer`/`deadline` fields of the embedding `timerCtx` when
`kind = timerK`.  `done = none` means the lazily created channel has not
been materialized; `children = none` is the nil map. -/
structure CNode where
  parent : Ctx
  kind : NodeKind
  done : Option ChanId
  children : Option (List NodeId)
  err : Option GoError
  timer : Bool
  deadline : Int
deriving DecidableEq, Repr

/-- Global state: the node heap (indexed by `NodeId`), the set of closed
channels, a fresh-channel counter, the current time (`time.Now()`), the
`goroutines` counter and the watcher goroutines spawned by the slow path
of `propagateCancel` (recorded, not executed). -/
structure State where
  nodes : List CNode
  closed : List ChanId
  nextChan : ChanId
  now : Int
  goroutines : Nat
  watchers : List (Ctx × NodeId)
deriving DecidableEq, Repr

/-- The state at program start: no nodes, only `closedchan` closed. -/
def initState : State :=
  { nodes := [], closed := [closedchan], nextChan := 1, now := 0,
    goroutines := 0, watchers := [] }

/-- Failures of a model run: a Go `panic` with its message, running out of
fuel, or following a node identifier that is not in the heap (the latter
two are model artifacts that never occur on well-formed executions). -/
inductive Failure where
  | panicked (msg : String)
  | fuelOut
  | invalidRef
deriving DecidableEq, Repr

namespace State

/-- Heap lookup. -/
def node? (s : State) (id : NodeId) : Option CNode := s.nodes.get? id

/-- Heap update (no-op on an out-of-range id, which never happens on
well-formed executions). -/
def setNode (s : State) (id : NodeId) (n : CNode) : State :=
  { s with nodes := s.nodes.set id n }

/-- Whether a channel has been closed. -/
def isClosed (s : State) (c : ChanId) : Bool := s.closed.contains c

/-- `close(d)`. -/
def closeChan (s : State) (c : ChanId) : State :=
  { s with closed := c :: s.closed }

end State

/-- The `err` field of a node (`none` when the node is absent). -/
def errAt (s : State) (id : NodeId) : Option GoError :=
  (s.node? id).bind (·.err)

/-- The children list of a node, reading the nil map as empty. -/
def childrenOfD (s : State) (id : NodeId) : List NodeId :=
  match s.node? id with
  | some n => n.children.getD []
  | none => []

/-- Insertion into the children map: a Go map add is a no-op on a present
key. -/
def insertChild (c : NodeId) (l : List NodeId) : List NodeId :=
  if l.contains c then l else l ++ [c]

/-- `Background()`. -/
def Background : Ctx := .background

/-- `TODO()`. -/
def TODO : Ctx := .todo

/-- `Context.Err()`: `emptyCtx` returns nil, a `cancelCtx` returns its
`err` field under its lock, a `valueCtx` delegates to its embedded
parent. -/
def CtxErr : Ctx → State → Except Failure (Option GoError)
  | .background, _ => .ok none
  | .todo, _ => .ok none
  | .cancelRef id, s =>
    match s.node? id with
    | none => .error .invalidRef
    | some n => .ok n.err
  | .valueRef _ _ p, s => CtxErr p s

/-- `Context.Done()`: `emptyCtx` returns nil; `cancelCtx.Done` lazily
materializes the channel under the lock; a `valueCtx` delegates to its
embedded parent.  Returns the channel (if any) and the possibly updated
state. -/
def CtxDone : Ctx → State → Except Failure (Option ChanId × State)
  | .background, s => .ok (none, s)
  | .todo, s => .ok (none, s)
  | .cancelRef id, s =>
    match s.node? id with
    | none => .error .invalidRef
    | some n =>
      match n.done with
      | some d => .ok (some d, s)
      | none =>
        .ok (some s.nextChan,
             { s with nextChan := s.nextChan + 1,
                      nodes := s.nodes.set id { n with done := some s.nextChan } })
  | .valueRef _ _ p, s => CtxDone p s

/-- `Context.Deadline()`: `emptyCtx` has none; `timerCtx.Deadline` returns
its stored deadline; a plain `cancelCtx` and a `valueCtx` delegate to
their embedded parent.  Fuel bounds the heap-parent hops. -/
def CtxDeadline : Nat → Ctx → State → Except Failure (Option Int)
  | 0, _, _ => .error .fuelOut
  | _ + 1, .background, _ => .ok none
  | _ + 1, .todo, _ => .ok none
  | fuel + 1, .cancelRef id, s =>
    match s.node? id with
    | none => .error .invalidRef
    | some n =>
      match n.kind with
      | .timerK => .ok (some n.deadline)
      | .cancelK => CtxDeadline fuel n.parent s
  | fuel + 1, .valueRef _ _ p, s => CtxDeadline fuel p s

/-- The `value` lookup walk (also the behaviour of each native `Value`
method): a `valueCtx` answers for its own key and otherwise delegates to
its parent; a `cancelCtx`/`timerCtx` answers the sentinel key with itself
and otherwise delegates; `emptyCtx` returns nil. -/
def value : Nat → Ctx → Key → State → Except Failure (Option GoVal)
  | 0, _, _, _ => .error .fuelOut
  | _ + 1, .background, _, _ => .ok none
  | _ + 1, .todo, _, _ => .ok none
  | fuel + 1, .valueRef key val p, k, s =>
    if k = key then .ok val else value fuel p k s
  | fuel + 1, .cancelRef id, k, s =>
    if k = .cancelCtxKey then .ok (some (.cancelCtxRef id))
    else
      match s.node? id with
      | none => .error .invalidRef
      | some n => value fuel n.parent k s

/-- `parentCancelCtx(parent)`: find the innermost enclosing `*cancelCtx`
via the sentinel key, and confirm that `parent.Done()` is exactly that
node's channel; returns `none` for the root contexts, an already closed
`closedchan`, or a foreign wrapper. -/
def parentCancelCtx (fuel : Nat) (parent : Ctx) (s : State) :
    Except Failure (Option NodeId × State) :=
  match CtxDone parent s with
  | .error f => .error f
  | .ok (done, s) =>
    match done with
    | none => .ok (none, s)
    | some d =>
      if d = closedchan then .ok (none, s)
      else
        match value fuel parent .cancelCtxKey s with
        | .error f => .error f
        | .ok v =>
          match v with
          | some (.cancelCtxRef p) =>
            match s.node? p with
            | none => .error .invalidRef
            | some pn =>
              if pn.done = some d then .ok (some p, s) else .ok (none, s)
          | _ => .ok (none, s)

/-- `removeChild(parent, child)`: remove `child` from the children map of
the native ancestor of `parent`, if there is one. -/
def removeChild (fuel : Nat) (parent : Ctx) (child : NodeId) (s : State) :
    Except Failure State :=
  match parentCancelCtx fuel parent s with
  | .error f => .error f
  | .ok (none, s) => .ok s
  | .ok (some p, s) =>
    match s.node? p with
    | none => .error .invalidRef
    | some pn =>
      match pn.children with
      | none => .ok s
      | some cs => .ok (s.setNode p { pn with children := some (cs.erase child) })

mutual

/-- `cancelCtx.cancel(removeFromParent, err)`: panic on a nil error; under
the lock return if already cancelled, otherwise set `err`, store
`closedchan` or close the materialized channel, cancel every child (while
holding the lock), nil the children map; finally, outside the lock,
detach from the parent when requested. -/
def cancelCtxCancel : Nat → NodeId → Bool → Option GoError → State →
    Except Failure State
  | 0, _, _, _, _ => .error .fuelOut
  | fuel + 1, id, removeFromParent, err, s =>
    match err with
    | none => .error (.panicked "context: internal error: missing cancel error")
    | some e =>
      match s.node? id with
      | none => .error .invalidRef
      | some n =>
        if n.err.isSome then .ok s
        else
          let s1 :=
            match n.done with
            | none => s.setNode id { n with err := some e, done := some closedchan }
            | some d => (s.setNode id { n with err := some e }).closeChan d
          match cancelChildren fuel (n.children.getD []) e s1 with
          | .error f => .error f
          | .ok s2 =>
            let s3 :=
              match s2.node? id with
              | none => s2
              | some n2 => s2.setNode id { n2 with children := none }
            if removeFromParent then removeChild fuel n.parent id s3 else .ok s3

/-- The loop `for child := range c.children { child.cancel(false, err) }`,
dispatching through the `canceler` interface. -/
def cancelChildren : Nat → List NodeId → GoError → State → Except Failure State
  | _, [], _, s => .ok s
  | 0, _ :: _, _, _ => .error .fuelOut
  | fuel + 1, c :: cs, e, s =>
    match dispatchCancel fuel c false (some e) s with
    | .error f => .error f
    | .ok s' => cancelChildren fuel cs e s'

/-- Dynamic dispatch of `canceler.cancel`: a `*cancelCtx` runs
`cancelCtx.cancel`, a `*timerCtx` runs `timerCtx.cancel`. -/
def dispatchCancel : Nat → NodeId → Bool → Option GoError → State →
    Except Failure State
  | 0, _, _, _, _ => .error .fuelOut
  | fuel + 1, id, removeFromParent, err, s =>
    match s.node? id with
    | none => .error .invalidRef
    | some n =>
      match n.kind with
      | .cancelK => cancelCtxCancel fuel id removeFromParent err s
      | .timerK => timerCtxCancel fuel id removeFromParent err s

/-- `timerCtx.cancel(removeFromParent, err)`: delegate to
`cancelCtx.cancel(false, err)`, detach from the parent when requested,
then under the lock stop and clear the timer. -/
def timerCtxCancel : Nat → NodeId → Bool → Option GoError → State →
    Except Failure State
  | 0, _, _, _, _ => .error .fuelOut
  | fuel + 1, id, removeFromParent, err, s =>
    match cancelCtxCancel fuel id false err s with
    | .error f => .error f
    | .ok s1 =>
      match s.node? id with
      | none => .error .invalidRef
      | some n =>
        match (if removeFromParent then removeChild fuel n.parent id s1
               else .ok s1 : Except Failure State) with
        | .error f => .error f
        | .ok s2 =>
          match s2.node? id with
          | none => .error .invalidRef
          | some n2 =>
            .ok (if n2.timer then s2.setNode id { n2 with timer := false } else s2)

end

/-- `propagateCancel(parent, child)`: do nothing for a never-cancelled
parent; cancel the child at once if the parent is already done; otherwise
register the child with the native ancestor (re-checking `err` under its
lock) or, failing that, spawn a watcher goroutine. -/
def propagateCancel (fuel : Nat) (parent : Ctx) (child : NodeId) (s : State) :
    Except Failure State :=
  match CtxDone parent s with
  | .error f => .error f
  | .ok (done, s) =>
    match done with
    | none => .ok s
    | some d =>
      if s.isClosed d then
        match CtxErr parent s with
        | .error f => .error f
        | .ok perr => dispatchCancel fuel child false perr s
      else
        match parentCancelCtx fuel parent s with
        | .error f => .error f
        | .ok (some p, s) =>
          match s.node? p with
          | none => .error .invalidRef
          | some pn =>
            if pn.err.isSome then dispatchCancel fuel child false pn.err s
            else .ok (s.setNode p
                       { pn with children := some (insertChild child (pn.children.getD [])) })
        | .ok (none, s) =>
          .ok { s with goroutines := s.goroutines + 1,
                       watchers := (parent, child) :: s.watchers }

/-- The `CancelFunc` closures returned by the constructors: they invoke
`c.cancel(removeFromParent, Canceled)` on a fixed node. -/
structure CancelOp where
  id : NodeId
  removeFromParent : Bool
deriving DecidableEq, Repr

/-- Invoking a returned `CancelFunc`. -/
def runCancelOp (fuel : Nat) (op : CancelOp) (s : State) : Except Failure State :=
  dispatchCancel fuel op.id op.removeFromParent (some .canceled) s

/-- `newCancelCtx(parent)`. -/
def newCancelCtx (parent : Ctx) : CNode :=
  { parent := parent, kind := .cancelK, done := none, children := none,
    err := none, timer := false, deadline := 0 }

/-- `WithCancel(parent)`: panic on a nil parent, allocate a `cancelCtx`,
run the propagation protocol, and return the context together with its
cancel operation. -/
def WithCancel (fuel : Nat) (parent : Option Ctx) (s : State) :
    Except Failure (Ctx × CancelOp × State) :=
  match parent with
  | none => .error (.panicked "cannot create context from nil parent")
  | some parent =>
    let id := s.nodes.length
    let s := { s with nodes := s.nodes ++ [newCancelCtx parent] }
    match propagateCancel fuel parent id s with
    | .error f => .error f
    | .ok s => .ok (.cancelRef id, ⟨id, true⟩, s)

/-- `WithDeadline(parent, d)`: panic on a nil parent; degrade to
`WithCancel` when the parent's deadline is already sooner; otherwise
allocate a `timerCtx`, run the propagation protocol, cancel immediately
with `DeadlineExceeded` when the deadline has passed, and otherwise (if
still live) start the timer. -/
def WithDeadline (fuel : Nat) (parent : Option Ctx) (d : Int) (s : State) :
    Except Failure (Ctx × CancelOp × State) :=
  match parent with
  | none => .error (.panicked "cannot create context from nil parent")
  | some parent =>
    match CtxDeadline fuel parent s with
    | .error f => .error f
    | .ok cur =>
      if (match cur with | some cur' => decide (cur' < d) | none => false) then
        WithCancel fuel (some parent) s
      else
        let id := s.nodes.length
        let s := { s with nodes := s.nodes ++
          [{ parent := parent, kind := .timerK, done := none, children := none,
             err := none, timer := false, deadline := d }] }
        match propagateCancel fuel parent id s with
        | .error f => .error f
        | .ok s =>
          let dur := d - s.now
          if dur ≤ 0 then
            match timerCtxCancel fuel id true (some .deadlineExceeded) s with
            | .error f => .error f
            | .ok s => .ok (.cancelRef id, ⟨id, false⟩, s)
          else
            match s.node? id with
            | none => .error .invalidRef
            | some n =>
              .ok (.cancelRef id, ⟨id, true⟩,
                   if n.err = none then s.setNode id { n with timer := true } else s)

/-- `WithTimeout(parent, timeout) = WithDeadline(parent, Now()+timeout)`. -/
def WithTimeout (fuel : Nat) (parent : Option Ctx) (timeout : Int) (s : State) :
    Except Failure (Ctx × CancelOp × State) :=
  WithDeadline fuel parent (s.now + timeout) s

/-- A key argument to `WithValue`: possibly nil, and carrying whether its
dynamic type is comparable. -/
inductive KeyArg where
  | nilKey
  | mk (comparable : Bool) (k : Key)
deriving DecidableEq, Repr

/-- `WithValue(parent, key, val)`: panic on a nil parent, a nil key, or a
non-comparable key; otherwise return the immutable `valueCtx`. -/
def WithValue (parent : Option Ctx) (key : KeyArg) (val : Option GoVal) :
    Except Failure Ctx :=
  match parent with
  | none => .error (.panicked "cannot create context from nil parent")
  | some parent =>
    match key with
    | .nilKey => .error (.panicked "nil key")
    | .mk comparable k =>
      if comparable then .ok (.valueRef k val parent)
      else .error (.panicked "key is not comparable")

/-! ## Trace instrumentation

A second, event-emitting copy of the cancel path, used to reason about
the order of lock operations relative to the recursive child
cancellations.  The functions mirror `cancelCtxCancel`/`timerCtxCancel`/
`dispatchCancel`/`cancelChildren`/`removeChild` statement for statement,
additionally recording, in execution order, every acquisition and release
of a node's exclusion lock (`c.mu.Lock()` / `c.mu.Unlock()`) and every
entry into a child's `cancel` (`child.cancel(false, err)`). -/

/-- Events of a cancellation run. -/
inductive Ev where
  | lockEv (id : NodeId)
  | unlockEv (id : NodeId)
  | callEv (id : NodeId)
deriving DecidableEq, Repr

/-- Trace of `removeChild`: `parentCancelCtx`, then the deletion of the
child from the found ancestor's map under that ancestor's lock. -/
def removeChildTr (fuel : Nat) (parent : Ctx) (child : NodeId) (s : State) :
    Except Failure (List Ev × State) :=
  match parentCancelCtx fuel parent s with
  | .error f => .error f
  | .ok (none, s) => .ok ([], s)
  | .ok (some p, s) =>
    match s.node? p with
    | none => .error .invalidRef
    | some pn =>
      match pn.children with
      | none => .ok ([.lockEv p, .unlockEv p], s)
      | some cs =>
        .ok ([.lockEv p, .unlockEv p],
             s.setNode p { pn with children := some (cs.erase child) })

mutual

/-- Trace of `cancelCtx.cancel`: the lock is taken first; on the early
(already cancelled) return it is released at once; otherwise the children
are cancelled and the map cleared before the release, and the detach from
the parent happens after it. -/
def cancelCtxCancelTr : Nat → NodeId → Bool → Option GoError → State →
    Except Failure (List Ev × State)
  | 0, _, _, _, _ => .error .fuelOut
  | fuel + 1, id, removeFromParent, err, s =>
    match err with
    | none => .error (.panicked "context: internal error: missing cancel error")
    | some e =>
      match s.node? id with
      | none => .error .invalidRef
      | some n =>
        if n.err.isSome then .ok ([.lockEv id, .unlockEv id], s)
        else
          let s1 :=
            match n.done with
            | none => s.setNode id { n with err := some e, done := some closedchan }
            | some d => (s.setNode id { n with err := some e }).closeChan d
          match cancelChildrenTr fuel (n.children.getD []) e s1 with
          | .error f => .error f
          | .ok (tr, s2) =>
            let s3 :=
              match s2.node? id with
              | none => s2
              | some n2 => s2.setNode id { n2 with children := none }
            match (if removeFromParent then removeChildTr fuel n.parent id s3
                   else .ok ([], s3) : Except Failure (List Ev × State)) with
            | .error f => .error f
            | .ok (tr2, s4) =>
              .ok (.lockEv id :: tr ++ .unlockEv id :: tr2, s4)

/-- Trace of the children loop: an entry event for each child followed by
that child's own trace. -/
def cancelChildrenTr : Nat → List NodeId → GoError → State →
    Except Failure (List Ev × State)
  | _, [], _, s => .ok ([], s)
  | 0, _ :: _, _, _ => .error .fuelOut
  | fuel + 1, c :: cs, e, s =>
    match dispatchCancelTr fuel c false (some e) s with
    | .error f => .error f
    | .ok (tr, s') =>
      match cancelChildrenTr fuel cs e s' with
      | .error f => .error f
      | .ok (tr', s'') => .ok (.callEv c :: tr ++ tr', s'')

/-- Trace of the `canceler.cancel` dispatch. -/
def dispatchCancelTr : Nat → NodeId → Bool → Option GoError → State →
    Except Failure (List Ev × State)
  | 0, _, _, _, _ => .error .fuelOut
  | fuel + 1, id, removeFromParent, err, s =>
    match s.node? id with
    | none => .error .invalidRef
    | some n =>
      match n.kind with
      | .cancelK => cancelCtxCancelTr fuel id removeFromParent err s
      | .timerK => timerCtxCancelTr fuel id removeFromParent err s

/-- Trace of `timerCtx.cancel`: the embedded cancel, the optional detach,
then the timer stop under the node's lock. -/
def timerCtxCancelTr : Nat → NodeId → Bool → Option GoError → State →
    Except Failure (List Ev × State)
  | 0, _, _, _, _ => .error .fuelOut
  | fuel + 1, id, removeFromParent, err, s =>
    match cancelCtxCancelTr fuel id false err s with
    | .error f => .error f
    | .ok (tr, s1) =>
      match s.node? id with
      | none => .error .invalidRef
      | some n =>
        match (if removeFromParent then removeChildTr fuel n.parent id s1
               else .ok ([], s1) : Except Failure (List Ev × State)) with
        | .error f => .error f
        | .ok (tr2, s2) =>
          match s2.node? id with
          | none => .error .invalidRef
          | some n2 =>
            .ok (tr ++ tr2 ++ [.lockEv id, .unlockEv id],
                 if n2.timer then s2.setNode id { n2 with timer := false } else s2)

end

/-! ## Well-formedness predicates

Decidable state predicates used as hypotheses; each one is an invariant
of all states reachable through the package's constructors. -/

/-- Whether a context value references only heap nodes with index below
`i` (parents are always allocated before their children) and carries no
`valueCtx` binding for the private sentinel key (user code cannot name
`&cancelCtxKey`). -/
def ctxOKB : Ctx → Nat → Bool
  | .background, _ => true
  | .todo, _ => true
  | .cancelRef j, i => decide (j < i)
  | .valueRef k _ p, i => !(decide (k = Key.cancelCtxKey)) && ctxOKB p i

/-- Every node's parent context references only earlier nodes and is
free of sentinel-key bindings. -/
def parentsOKB (s : State) : Bool :=
  (List.range s.nodes.length).all fun i =>
    match s.node? i with
    | some n => ctxOKB n.parent i
    | none => true

/-- Every registered child has a larger index than its registering
parent (children are allocated after their parents). -/
def childIncB (s : State) : Bool :=
  (List.range s.nodes.length).all fun i =>
    (childrenOfD s i).all fun c => decide (i < c)

/-- No node is registered in two different children sets. -/
def uniqParentsB (s : State) : Bool :=
  (List.range s.nodes.length).all fun i =>
    (List.range s.nodes.length).all fun j =>
      decide (i = j) || (childrenOfD s i).all fun x => !((childrenOfD s j).contains x)

/-- The pre-closed channel is closed. -/
def closedOKB (s : State) : Bool := s.closed.contains closedchan

/-- A node is cancelled exactly when it has a closed done channel: a
cancelled node's channel is present and closed, a live node's channel
(if materialized) is still open. -/
def errDoneOKB (s : State) : Bool :=
  s.nodes.all fun n =>
    match n.err, n.done with
    | some _, some d => s.isClosed d
    | some _, none => false
    | none, some d => !(s.isClosed d)
    | none, none => true

/-- Every channel identifier in use is below the fresh-channel counter. -/
def closedLtNextB (s : State) : Bool :=
  s.closed.all (fun c => decide (c < s.nextChan))

/-! ## Basic state lemmas -/

theorem node?_lt {s : State} {id : NodeId} {n : CNode} (h : s.node? id = some n) :
    id < s.nodes.length := by
  by_contra hlt
  have hnone : s.nodes.get? id = none := List.get?_eq_none.mpr (Nat.le_of_not_lt hlt)
  rw [State.node?, hnone] at h
  exact Option.noConfusion h

theorem node?_setNode_self {s : State} {id : NodeId} {m : CNode} (n : CNode)
    (h : s.node? id = some m) : (s.setNode id n).node? id = some n := by
  simp only [State.node?, State.setNode]
  exact List.get?_set_eq_of_lt n (node?_lt h)

theorem node?_setNode_ne (s : State) (id : NodeId) (n : CNode) {j : NodeId}
    (h : j ≠ id) : (s.setNode id n).node? j = s.node? j := by
  simp only [State.node?, State.setNode]
  exact List.get?_set_ne n s.nodes (fun he => h he.symm)

theorem length_setNode (s : State) (id : NodeId) (n : CNode) :
    (s.setNode id n).nodes.length = s.nodes.length := by
  simp [State.setNode]

theorem node?_closeChan (s : State) (d : ChanId) (j : NodeId) :
    (s.closeChan d).node? j = s.node? j := rfl

theorem isClosed_closeChan_self (s : State) (d : ChanId) :
    (s.closeChan d).isClosed d = true := by
  simp [State.closeChan, State.isClosed]

theorem mem_closed_closeChan (s : State) (d c : ChanId) (h : c ∈ s.closed) :
    c ∈ (s.closeChan d).closed := by
  simp [State.closeChan]
  exact Or.inr h

/-! ## The evolution relation of the cancel path

`EvolvesW e s s'` records what any completed run of the cancel-path
functions can do to the state: it never allocates or frees nodes, never
reopens a channel, never changes a node's identity fields, never unsets
or overwrites an error, only sets errors to `e` (closing the done channel
at the same time), never replaces a materialized done channel, never sets
a timer, and never adds a child registration.  `Evolves` additionally
records that a node whose error is set by the run ends with an empty
children set (invariant I1). -/

/-- Per-node weak evolution clauses. -/
structure NodeEvW (e : GoError) (s' : State) (n n' : CNode) : Prop where
  parentEq : n'.parent = n.parent
  kindEq : n'.kind = n.kind
  deadlineEq : n'.deadline = n.deadline
  errSome : n.err.isSome → n'.err = n.err
  errNone : n.err = none → n'.err = none ∨
    (n'.err = some e ∧ ∃ d, n'.done = some d ∧ s'.isClosed d = true)
  doneSome : ∀ d, n.done = some d → n'.done = some d
  timerF : n.timer = false → n'.timer = false
  childSub : ∀ x, x ∈ n'.children.getD [] → x ∈ n.children.getD []

/-- Weak evolution of the whole state. -/
structure EvolvesW (e : GoError) (s s' : State) : Prop where
  lenEq : s'.nodes.length = s.nodes.length
  nowEq : s'.now = s.now
  nextChanLe : s.nextChan ≤ s'.nextChan
  closedSub : ∀ c, c ∈ s.closed → c ∈ s'.closed
  gorEq : s'.goroutines = s.goroutines
  watEq : s'.watchers = s.watchers
  node : ∀ m n, s.node? m = some n → ∃ n', s'.node? m = some n' ∧ NodeEvW e s' n n'

/-- Full evolution: weak evolution plus emptiness of the children set of
every node whose error the run sets. -/
structure Evolves (e : GoError) (s s' : State) : Prop where
  toW : EvolvesW e s s'
  childEmpty : ∀ m n n', s.node? m = some n → s'.node? m = some n' →
    n.err = none → n'.err.isSome → n'.children.getD [] = []

theorem NodeEvW.reflNW (e : GoError) (s : State) (n : CNode) : NodeEvW e s n n :=
  ⟨rfl, rfl, rfl, fun _ => rfl, fun h => Or.inl h, fun _ h => h, fun h => h,
   fun _ h => h⟩

theorem EvolvesW.reflW (e : GoError) (s : State) : EvolvesW e s s :=
  ⟨rfl, rfl, Nat.le_refl _, fun _ h => h, rfl, rfl,
   fun _ n h => ⟨n, h, NodeEvW.reflNW e s n⟩⟩

theorem Evolves.reflE (e : GoError) (s : State) : Evolves e s s :=
  ⟨EvolvesW.reflW e s, fun m n n' h h' hn hs => by
    rw [h] at h'
    cases h'
    rw [hn] at hs
    exact absurd hs (by simp)⟩

theorem EvolvesW.transW {e : GoError} {s s' s'' : State}
    (h1 : EvolvesW e s s') (h2 : EvolvesW e s' s'') : EvolvesW e s s'' := by
  refine ⟨h2.lenEq.trans h1.lenEq, h2.nowEq.trans h1.nowEq,
    Nat.le_trans h1.nextChanLe h2.nextChanLe,
    fun c hc => h2.closedSub c (h1.closedSub c hc),
    h2.gorEq.trans h1.gorEq, h2.watEq.trans h1.watEq, ?_⟩
  intro m n hm
  obtain ⟨n1, hm1, hn1⟩ := h1.node m n hm
  obtain ⟨n2, hm2, hn2⟩ := h2.node m n1 hm1
  refine ⟨n2, hm2, ?_⟩
  refine ⟨hn2.parentEq.trans hn1.parentEq, hn2.kindEq.trans hn1.kindEq,
    hn2.deadlineEq.trans hn1.deadlineEq, ?_, ?_, ?_, ?_, ?_⟩
  · intro hs
    have h1e := hn1.errSome hs
    rw [hn2.errSome (by rw [h1e]; exact hs), h1e]
  · intro hn
    rcases hn1.errNone hn with h1e | ⟨h1e, d, hd, hcl⟩
    · rcases hn2.errNone h1e with h2e | ⟨h2e, d, hd, hcl⟩
      · exact Or.inl h2e
      · exact Or.inr ⟨h2e, d, hd, hcl⟩
    · refine Or.inr ⟨?_, d, hn2.doneSome d hd, ?_⟩
      · rw [hn2.errSome (by rw [h1e]; rfl), h1e]
      · simp only [State.isClosed, List.elem_iff] at hcl ⊢
        exact h2.closedSub d hcl
  · intro d hd
    exact hn2.doneSome d (hn1.doneSome d hd)
  · intro ht
    exact hn2.timerF (hn1.timerF ht)
  · intro x hx
    exact hn1.childSub x (hn2.childSub x hx)

theorem closedOKB_mono {e : GoError} {s s' : State} (h : EvolvesW e s s')
    (hc : closedOKB s = true) : closedOKB s' = true := by
  simp only [closedOKB, List.elem_iff] at hc ⊢
  exact h.closedSub _ hc

theorem Evolves.transE {e : GoError} {s s' s'' : State}
    (h1 : Evolves e s s') (h2 : Evolves e s' s'') : Evolves e s s'' := by
  refine ⟨h1.toW.transW h2.toW, ?_⟩
  intro m n n'' hm hm'' hn hs
  obtain ⟨n', hm', hev⟩ := h1.toW.node m n hm
  by_cases h : n'.err = none
  · exact h2.childEmpty m n' n'' hm' hm'' h hs
  · have hempty := h1.childEmpty m n n' hm hm' hn (Option.ne_none_iff_isSome.mp h)
    obtain ⟨n2, hm2, hev2⟩ := h2.toW.node m n' hm'
    rw [hm''] at hm2
    cases hm2
    exact List.eq_nil_iff_forall_not_mem.mpr
      (fun x hx => by
        have := hev2.childSub x hx
        rw [hempty] at this
        exact absurd this (List.not_mem_nil x))

/-! ## Effect lemmas for the non-cancelling helpers -/

/-- `CtxDone` at most materializes one done channel: the heap skeleton,
errors, children and the closed set are untouched. -/
theorem CtxDone_effects : ∀ (c : Ctx) (s : State) (r : Option ChanId × State),
    CtxDone c s = .ok r →
    (∀ e, EvolvesW e s r.2) ∧ (∀ m, errAt r.2 m = errAt s m) ∧
    r.2.closed = s.closed ∧ (∀ m, childrenOfD r.2 m = childrenOfD s m) ∧
    r.2.nodes.length = s.nodes.length
  | .background, s, r, h => by
    simp only [CtxDone] at h
    cases h
    exact ⟨fun e => EvolvesW.reflW e s, fun _ => rfl, rfl, fun _ => rfl, rfl⟩
  | .todo, s, r, h => by
    simp only [CtxDone] at h
    cases h
    exact ⟨fun e => EvolvesW.reflW e s, fun _ => rfl, rfl, fun _ => rfl, rfl⟩
  | .valueRef k v p, s, r, h => CtxDone_effects p s r h
  | .cancelRef id, s, r, h => by
    simp only [CtxDone] at h
    split at h
    · exact absurd h (by simp)
    · rename_i n hn
      split at h
      · cases h
        exact ⟨fun e => EvolvesW.reflW e s, fun _ => rfl, rfl, fun _ => rfl, rfl⟩
      · rename_i hd
        cases h
        have hset : ∀ j, ∀ nn : CNode,
            (State.mk (s.nodes.set id nn) s.closed (s.nextChan + 1) s.now
              s.goroutines s.watchers).node? j = (s.setNode id nn).node? j :=
          fun _ _ => rfl
        refine ⟨fun e => ?_, fun m => ?_, rfl, fun m => ?_, by simp [State.node?, State.setNode]⟩
        · refine ⟨by simp [State.setNode], rfl, Nat.le_succ _, fun c hc => hc, rfl, rfl, ?_⟩
          intro m nm hm
          by_cases hmid : m = id
          · subst hmid
            rw [hm] at hn
            cases hn
            refine ⟨_, by rw [hset]; exact node?_setNode_self _ hm, ?_⟩
            refine ⟨rfl, rfl, rfl, fun _ => rfl, fun hh => Or.inl hh, ?_, fun h => h,
              fun _ h => h⟩
            intro d hd'
            rw [hd] at hd'
            exact Option.noConfusion hd'
          · exact ⟨nm, by rw [hset]; rw [node?_setNode_ne s id _ hmid]; exact hm,
              NodeEvW.reflNW _ _ _⟩
        · by_cases hmid : m = id
          · subst hmid
            simp [errAt, hset, node?_setNode_self _ hn, hn]
          · simp only [errAt, hset, node?_setNode_ne s id _ hmid]
        · by_cases hmid : m = id
          · subst hmid
            simp only [childrenOfD, hset, node?_setNode_self _ hn, hn]
          · simp only [childrenOfD, hset, node?_setNode_ne s id _ hmid]

/-- `parentCancelCtx` has the same effects as the `parent.Done()` call it
makes; when it finds a native ancestor, that ancestor's done channel is
the parent's and is not `closedchan`. -/
theorem parentCancelCtx_effects {fuel : Nat} {c : Ctx} {s : State}
    {r : Option NodeId × State} (h : parentCancelCtx fuel c s = .ok r) :
    (∀ e, EvolvesW e s r.2) ∧ (∀ m, errAt r.2 m = errAt s m) ∧
    r.2.closed = s.closed ∧ (∀ m, childrenOfD r.2 m = childrenOfD s m) ∧
    (∀ p, r.1 = some p → ∃ pn d, r.2.node? p = some pn ∧ pn.done = some d ∧
      d ≠ closedchan ∧ CtxDone c s = .ok (some d, r.2)) := by
  simp only [parentCancelCtx] at h
  split at h
  · exact absurd h (by simp)
  · rename_i dr dopt s1 hdone
    obtain ⟨hev, herr, hcl, hch, hlen0⟩ := CtxDone_effects c s (dopt, s1) hdone
    split at h
    · cases h; exact ⟨hev, herr, hcl, hch, fun p hp => Option.noConfusion hp⟩
    · rename_i d
      split at h
      · cases h
        exact ⟨hev, herr, hcl, hch, fun p hp => Option.noConfusion hp⟩
      · rename_i hdc
        split at h
        · exact absurd h (by simp)
        · rename_i v hv
          split at h
          · rename_i p
            split at h
            · exact absurd h (by simp)
            · rename_i pn hp
              split at h
              · rename_i hpd
                cases h
                exact ⟨hev, herr, hcl, hch, fun q hq => by
                  cases hq; exact ⟨pn, d, hp, hpd, hdc, hdone⟩⟩
              · cases h
                exact ⟨hev, herr, hcl, hch, fun p hp => Option.noConfusion hp⟩
          · cases h
            exact ⟨hev, herr, hcl, hch, fun p hp => Option.noConfusion hp⟩

/-- `removeChild` at most materializes a done channel and deletes one
child registration: errors and the closed set are untouched. -/
theorem removeChild_effects {fuel : Nat} {c : Ctx} {cid : NodeId} {s s' : State}
    (h : removeChild fuel c cid s = .ok s') :
    (∀ e, EvolvesW e s s') ∧ (∀ m, errAt s' m = errAt s m) ∧ s'.closed = s.closed := by
  simp only [removeChild] at h
  split at h
  · exact absurd h (by simp)
  · rename_i pr s1 hpc
    obtain ⟨hev, herr, hcl, hch, _⟩ := parentCancelCtx_effects hpc
    cases h
    exact ⟨hev, herr, hcl⟩
  · rename_i pr p s1 hpc
    obtain ⟨hev, herr, hcl, hch, _⟩ := parentCancelCtx_effects hpc
    split at h
    · exact absurd h (by simp)
    · rename_i pn hp
      split at h
      · cases h; exact ⟨hev, herr, hcl⟩
      · rename_i cs hpc2
        cases h
        have hev1 : ∀ e, EvolvesW e s1
            (s1.setNode p { pn with children := some (cs.erase cid) }) := by
          intro e
          refine ⟨by simp [State.setNode], rfl, Nat.le_refl _, fun c hc => hc, rfl, rfl, ?_⟩
          intro m nm hm
          by_cases hmp : m = p
          · subst hmp
            rw [hm] at hp
            cases hp
            refine ⟨_, node?_setNode_self _ hm, ?_⟩
            refine ⟨rfl, rfl, rfl, fun _ => rfl, fun hh => Or.inl hh, fun _ h => h,
              fun h => h, ?_⟩
            intro x hx
            simp only [hpc2, Option.getD] at hx ⊢
            exact List.mem_of_mem_erase hx
          · exact ⟨nm, by rw [node?_setNode_ne s1 p _ hmp]; exact hm, NodeEvW.reflNW _ _ _⟩
        refine ⟨fun e => (hev e).transW (hev1 e), fun m => ?_, hcl⟩
        rw [← herr m]
        by_cases hmp : m = p
        · subst hmp
          simp [errAt, node?_setNode_self _ hp, hp]
        · simp only [errAt, node?_setNode_ne s1 p _ hmp]

end Ctxt

namespace Ctxt

/-! ## The evolution lemma for the cancel path -/

/-- A weak evolution that preserves every node's error is a full
evolution (no transition happens at all). -/
theorem Evolves.of_errAt_preserved {e : GoError} {s s' : State}
    (hw : EvolvesW e s s') (herr : ∀ m, errAt s' m = errAt s m) :
    Evolves e s s' := by
  refine ⟨hw, ?_⟩
  intro m nm nm' hm hm' hn hs
  have h1 : errAt s m = none := by simp [errAt, hm, hn]
  have h2 : errAt s' m = nm'.err := by simp [errAt, hm']
  rw [herr m, h1] at h2
  rw [← h2] at hs
  exact absurd hs (by simp)

/-- Replacing one node's children with a subset is a weak evolution that
preserves errors. -/
theorem evolvesW_setNode_children (e : GoError) {s : State} {id : NodeId}
    {n : CNode} (cs' : Option (List NodeId)) (hn : s.node? id = some n)
    (hsub : ∀ x, x ∈ cs'.getD [] → x ∈ n.children.getD []) :
    EvolvesW e s (s.setNode id { n with children := cs' }) ∧
    (∀ m, errAt (s.setNode id { n with children := cs' }) m = errAt s m) := by
  constructor
  · refine ⟨by simp [State.setNode], rfl, Nat.le_refl _, fun c hc => hc, rfl, rfl, ?_⟩
    intro m nm hm
    by_cases hmid : m = id
    · subst hmid
      rw [hm] at hn
      cases hn
      exact ⟨_, node?_setNode_self _ hm,
        ⟨rfl, rfl, rfl, fun _ => rfl, fun hh => Or.inl hh, fun _ h => h, fun h => h, hsub⟩⟩
    · exact ⟨nm, by rw [node?_setNode_ne s id _ hmid]; exact hm, NodeEvW.reflNW _ _ _⟩
  · intro m
    by_cases hmid : m = id
    · subst hmid
      simp [errAt, node?_setNode_self _ hn, hn]
    · simp only [errAt, node?_setNode_ne s id _ hmid]

/-- Clearing one node's timer is a weak evolution that preserves
errors. -/
theorem evolvesW_setNode_timer (e : GoError) {s : State} {id : NodeId}
    {n : CNode} (hn : s.node? id = some n) :
    EvolvesW e s (s.setNode id { n with timer := false }) ∧
    (∀ m, errAt (s.setNode id { n with timer := false }) m = errAt s m) := by
  constructor
  · refine ⟨by simp [State.setNode], rfl, Nat.le_refl _, fun c hc => hc, rfl, rfl, ?_⟩
    intro m nm hm
    by_cases hmid : m = id
    · subst hmid
      rw [hm] at hn
      cases hn
      exact ⟨_, node?_setNode_self _ hm,
        ⟨rfl, rfl, rfl, fun _ => rfl, fun hh => Or.inl hh, fun _ h => h, fun _ => rfl,
         fun _ h => h⟩⟩
    · exact ⟨nm, by rw [node?_setNode_ne s id _ hmid]; exact hm, NodeEvW.reflNW _ _ _⟩
  · intro m
    by_cases hmid : m = id
    · subst hmid
      simp [errAt, node?_setNode_self _ hn, hn]
    · simp only [errAt, node?_setNode_ne s id _ hmid]

/-- The error/done transition inside `cancelCtx.cancel`, case of an
unmaterialized done channel: set `err` and store `closedchan`. -/
theorem transition_step_none (e : GoError) {s : State} {id : NodeId} {n : CNode}
    (hn : s.node? id = some n) (hne : n.err = none) (hd : n.done = none)
    (hcl : closedOKB s = true) :
    EvolvesW e s (s.setNode id { n with err := some e, done := some closedchan }) ∧
    (s.setNode id { n with err := some e, done := some closedchan }).node? id =
      some { n with err := some e, done := some closedchan } ∧
    (s.setNode id { n with err := some e, done := some closedchan }).isClosed closedchan = true ∧
    (∀ m, m ≠ id →
      (s.setNode id { n with err := some e, done := some closedchan }).node? m = s.node? m) ∧
    closedOKB (s.setNode id { n with err := some e, done := some closedchan }) = true := by
  have hself := node?_setNode_self { n with err := some e, done := some closedchan } hn
  have hcl' : (s.setNode id { n with err := some e, done := some closedchan }).isClosed
      closedchan = true := by
    simpa [closedOKB, State.setNode, State.isClosed] using hcl
  refine ⟨?_, hself, hcl', fun m hm => node?_setNode_ne s id _ hm,
    by simpa [closedOKB, State.setNode] using hcl⟩
  refine ⟨by simp [State.setNode], rfl, Nat.le_refl _, fun c hc => hc, rfl, rfl, ?_⟩
  intro m nm hm
  by_cases hmid : m = id
  · subst hmid
    rw [hm] at hn
    cases hn
    refine ⟨_, hself, rfl, rfl, rfl, ?_, ?_, ?_, fun h => h, fun _ h => h⟩
    · intro hs
      rw [hne] at hs
      exact absurd hs (by simp)
    · intro _
      exact Or.inr ⟨rfl, closedchan, rfl, hcl'⟩
    · intro d hd'
      rw [hd] at hd'
      exact Option.noConfusion hd'
  · exact ⟨nm, by rw [node?_setNode_ne s id _ hmid]; exact hm, NodeEvW.reflNW _ _ _⟩

/-- The error/done transition inside `cancelCtx.cancel`, case of a
materialized done channel: set `err` and close the channel. -/
theorem transition_step_some (e : GoError) {s : State} {id : NodeId} {n : CNode}
    {d0 : ChanId} (hn : s.node? id = some n) (hne : n.err = none)
    (hd : n.done = some d0) (hcl : closedOKB s = true) :
    EvolvesW e s ((s.setNode id { n with err := some e }).closeChan d0) ∧
    ((s.setNode id { n with err := some e }).closeChan d0).node? id =
      some { n with err := some e } ∧
    ((s.setNode id { n with err := some e }).closeChan d0).isClosed d0 = true ∧
    (∀ m, m ≠ id →
      ((s.setNode id { n with err := some e }).closeChan d0).node? m = s.node? m) ∧
    closedOKB ((s.setNode id { n with err := some e }).closeChan d0) = true := by
  have hself : ((s.setNode id { n with err := some e }).closeChan d0).node? id =
      some { n with err := some e } := node?_setNode_self { n with err := some e } hn
  have hcl0 : ((s.setNode id { n with err := some e }).closeChan d0).isClosed d0 = true :=
    isClosed_closeChan_self _ d0
  refine ⟨?_, hself, hcl0, fun m hm => by rw [node?_closeChan, node?_setNode_ne s id _ hm], ?_⟩
  · refine ⟨by simp [State.setNode, State.closeChan], rfl, Nat.le_refl _,
      fun c hc => mem_closed_closeChan _ d0 c hc, rfl, rfl, ?_⟩
    intro m nm hm
    by_cases hmid : m = id
    · subst hmid
      rw [hm] at hn
      cases hn
      refine ⟨_, hself, rfl, rfl, rfl, ?_, ?_, ?_, fun h => h, fun _ h => h⟩
      · intro hs
        rw [hne] at hs
        exact absurd hs (by simp)
      · intro _
        exact Or.inr ⟨rfl, d0, by simp [hd], hcl0⟩
      · intro d hd'
        rw [hd] at hd'
        cases hd'
        simp [hd]
    · exact ⟨nm, by rw [node?_closeChan, node?_setNode_ne s id _ hmid]; exact hm,
        NodeEvW.reflNW _ _ _⟩
  · simp only [closedOKB, State.closeChan, State.setNode, List.elem_iff] at hcl ⊢
    exact List.mem_cons_of_mem d0 hcl

end Ctxt

namespace Ctxt

/-- Assembling a full run of `cancelCtx.cancel` on a live node from its
four stages (error/done transition, children fan-out, children clearing,
optional detach). -/
theorem cancel_assemble {e : GoError} {s S1 s2 s3 s' : State} {id : NodeId}
    {n n1 n2 : CNode}
    (hn : s.node? id = some n)
    (hw1 : EvolvesW e s S1) (hid1 : S1.node? id = some n1)
    (hoth1 : ∀ m, m ≠ id → S1.node? m = s.node? m)
    (hEv2 : Evolves e S1 s2)
    (hs2id : s2.node? id = some n2)
    (hs3 : s3 = s2.setNode id { n2 with children := none })
    (hw3 : EvolvesW e s2 s3)
    (hw4 : EvolvesW e s3 s') (herr4 : ∀ m, errAt s' m = errAt s3 m) :
    Evolves e s s' := by
  refine ⟨hw1.transW ((hEv2.toW.transW hw3).transW hw4), ?_⟩
  intro m nm nm' hm hm' hnone hsome
  by_cases hmid : m = id
  · subst hmid
    have hs3id : s3.node? m = some { n2 with children := none } := by
      rw [hs3]; exact node?_setNode_self _ hs2id
    obtain ⟨n4, hn4, hev4⟩ := hw4.node m _ hs3id
    rw [hm'] at hn4
    cases hn4
    refine List.eq_nil_iff_forall_not_mem.mpr (fun x hx => ?_)
    have := hev4.childSub x hx
    simp at this
  · have hS1m : S1.node? m = some nm := by rw [hoth1 m hmid]; exact hm
    obtain ⟨n2m, hn2m, hev2m⟩ := hEv2.toW.node m nm hS1m
    have hs3m : s3.node? m = s2.node? m := by
      rw [hs3]; exact node?_setNode_ne s2 id _ hmid
    cases h2e : n2m.err with
    | some e2 =>
      have hemp : n2m.children.getD [] = [] :=
        hEv2.childEmpty m nm n2m hS1m hn2m hnone (by rw [h2e]; rfl)
      obtain ⟨n3m, hn3m, hev3m⟩ := hw3.node m n2m hn2m
      obtain ⟨n4m, hn4m, hev4m⟩ := hw4.node m n3m hn3m
      rw [hm'] at hn4m
      cases hn4m
      refine List.eq_nil_iff_forall_not_mem.mpr (fun x hx => ?_)
      have hx3 := hev3m.childSub x (hev4m.childSub x hx)
      rw [hemp] at hx3
      exact absurd hx3 (List.not_mem_nil x)
    | none =>
      have herr3 : errAt s3 m = none := by
        simp [errAt, hs3m, hn2m, h2e]
      have herr' : errAt s' m = none := by rw [herr4 m, herr3]
      have : errAt s' m = nm'.err := by simp [errAt, hm']
      rw [herr'] at this
      rw [← this] at hsome
      exact absurd hsome (by simp)

end Ctxt

namespace Ctxt

/-- The error/done transition inside `cancelCtx.cancel`, combined form
matching the program text. -/
theorem transition_step (e : GoError) {s : State} {id : NodeId} {n : CNode}
    (hn : s.node? id = some n) (hne : n.err = none) (hcl : closedOKB s = true) :
    EvolvesW e s (match n.done with
      | none => s.setNode id { n with err := some e, done := some closedchan }
      | some d => (s.setNode id { n with err := some e }).closeChan d) ∧
    (∃ n1, (match n.done with
      | none => s.setNode id { n with err := some e, done := some closedchan }
      | some d => (s.setNode id { n with err := some e }).closeChan d).node? id = some n1 ∧
      n1.err = some e ∧ ∃ d1, n1.done = some d1 ∧ (match n.done with
      | none => s.setNode id { n with err := some e, done := some closedchan }
      | some d => (s.setNode id { n with err := some e }).closeChan d).isClosed d1 = true) ∧
    (∀ m, m ≠ id → (match n.done with
      | none => s.setNode id { n with err := some e, done := some closedchan }
      | some d => (s.setNode id { n with err := some e }).closeChan d).node? m = s.node? m) ∧
    closedOKB (match n.done with
      | none => s.setNode id { n with err := some e, done := some closedchan }
      | some d => (s.setNode id { n with err := some e }).closeChan d) = true := by
  cases hd : n.done with
  | none =>
    obtain ⟨hw, hself, hcl', hoth, hclok⟩ := transition_step_none e hn hne hd hcl
    exact ⟨hw, ⟨_, hself, rfl, closedchan, rfl, hcl'⟩, hoth, hclok⟩
  | some d0 =>
    obtain ⟨hw, hself, hcl0, hoth, hclok⟩ := transition_step_some e hn hne hd hcl
    rw [hd] at hw hself hcl0 hoth hclok
    exact ⟨hw, ⟨_, hself, rfl, d0, rfl, hcl0⟩, hoth, hclok⟩

/-- A node that has been cancelled with error `e`: its `err` slot holds
`e` and its done channel is present and closed. -/
def Cancelled (s : State) (e : GoError) (x : NodeId) : Prop :=
  ∃ n, s.node? x = some n ∧ n.err = some e ∧
    ∃ d, n.done = some d ∧ s.isClosed d = true

/-- Once cancelled, always cancelled: a weak evolution (with any error)
preserves `Cancelled`. -/
theorem Cancelled.mono {e e' : GoError} {s s' : State} {x : NodeId}
    (h : Cancelled s e x) (hw : EvolvesW e' s s') : Cancelled s' e x := by
  obtain ⟨n, hn, herr, d, hd, hcl⟩ := h
  obtain ⟨n', hn', hev⟩ := hw.node x n hn
  refine ⟨n', hn', ?_, d, hev.doneSome d hd, ?_⟩
  · rw [hev.errSome (by rw [herr]; rfl), herr]
  · simp only [State.isClosed, List.elem_iff] at hcl ⊢
    exact hw.closedSub d hcl

/-- Every completed run of the cancel path weakly evolves the state,
empties the children set of every node it cancels, and — when invoked on
a live node — cancels that node. -/
theorem cancel_evolves : ∀ fuel : Nat,
    (∀ id rm e s s', closedOKB s = true →
      cancelCtxCancel fuel id rm (some e) s = .ok s' →
      Evolves e s s' ∧ (∀ n, s.node? id = some n → n.err = none → Cancelled s' e id)) ∧
    (∀ ids e s s', closedOKB s = true →
      cancelChildren fuel ids e s = .ok s' → Evolves e s s') ∧
    (∀ id rm e s s', closedOKB s = true →
      dispatchCancel fuel id rm (some e) s = .ok s' →
      Evolves e s s' ∧ (∀ n, s.node? id = some n → n.err = none → Cancelled s' e id)) ∧
    (∀ id rm e s s', closedOKB s = true →
      timerCtxCancel fuel id rm (some e) s = .ok s' →
      Evolves e s s' ∧ (∀ n, s.node? id = some n → n.err = none → Cancelled s' e id)) := by
  intro fuel
  induction fuel with
  | zero =>
    refine ⟨fun id rm e s s' _ h => absurd h (by simp [cancelCtxCancel]),
      fun ids e s s' _ h => ?_,
      fun id rm e s s' _ h => absurd h (by simp [dispatchCancel]),
      fun id rm e s s' _ h => absurd h (by simp [timerCtxCancel])⟩
    cases ids with
    | nil =>
      simp only [cancelChildren] at h
      cases h
      exact Evolves.reflE e s
    | cons c cs => exact absurd h (by simp [cancelChildren])
  | succ fuel ih =>
    obtain ⟨ihC, ihCh, ihD, ihT⟩ := ih
    have hC : ∀ id rm e s s', closedOKB s = true →
        cancelCtxCancel (fuel + 1) id rm (some e) s = .ok s' →
        Evolves e s s' ∧ (∀ n, s.node? id = some n → n.err = none → Cancelled s' e id) := by
      intro id rm e s s' hcl h
      simp only [cancelCtxCancel] at h
      split at h
      · exact absurd h (by simp)
      · rename_i n hn
        split at h
        · rename_i hguard
          cases h
          refine ⟨Evolves.reflE e s, ?_⟩
          intro n' hn' hne'
          rw [hn] at hn'
          cases hn'
          rw [hne'] at hguard
          exact absurd hguard (by simp)
        · rename_i hguard
          have hne : n.err = none := by
            cases hne' : n.err
            · rfl
            · rw [hne'] at hguard
              exact absurd rfl hguard
          obtain ⟨hw1, ⟨n1, hid1, hn1e, d1, hd1, hdc1⟩, hoth1, hclok1⟩ :=
            transition_step e hn hne hcl
          have hCanc1 : Cancelled _ e id := ⟨n1, hid1, hn1e, d1, hd1, hdc1⟩
          split at h
          · exact absurd h (by simp)
          · rename_i s2 hch
            have hEv2 := ihCh _ _ _ _ hclok1 hch
            split at h
            · -- removeFromParent
              split at h
              · rename_i hs2id
                obtain ⟨n2, hn2, _⟩ := hEv2.toW.node id n1 hid1
                rw [hs2id] at hn2
                exact absurd hn2 (by simp)
              · rename_i n2 hs2id
                obtain ⟨hw3, herr3⟩ := evolvesW_setNode_children e none hs2id
                  (fun x hx => absurd hx (List.not_mem_nil x))
                obtain ⟨hw4, herr4, _⟩ := removeChild_effects h
                exact ⟨cancel_assemble hn hw1 hid1 hoth1 hEv2 hs2id rfl hw3 (hw4 e) herr4,
                  fun _ _ _ => (((hCanc1.mono hEv2.toW).mono hw3).mono (hw4 e))⟩
            · split at h
              · rename_i hs2id
                obtain ⟨n2, hn2, _⟩ := hEv2.toW.node id n1 hid1
                rw [hs2id] at hn2
                exact absurd hn2 (by simp)
              · rename_i n2 hs2id
                cases h
                obtain ⟨hw3, herr3⟩ := evolvesW_setNode_children e none hs2id
                  (fun x hx => absurd hx (List.not_mem_nil x))
                exact ⟨cancel_assemble hn hw1 hid1 hoth1 hEv2 hs2id rfl hw3
                  (EvolvesW.reflW e _) (fun _ => rfl),
                  fun _ _ _ => (hCanc1.mono hEv2.toW).mono hw3⟩
    have hT : ∀ id rm e s s', closedOKB s = true →
        timerCtxCancel (fuel + 1) id rm (some e) s = .ok s' →
        Evolves e s s' ∧ (∀ n, s.node? id = some n → n.err = none → Cancelled s' e id) := by
      intro id rm e s s' hcl h
      simp only [timerCtxCancel] at h
      split at h
      · exact absurd h (by simp)
      · rename_i s1 hc1
        obtain ⟨hEv1, hCanc1⟩ := ihC _ _ _ _ _ hcl hc1
        split at h
        · exact absurd h (by simp)
        · rename_i n hn
          split at h
          · exact absurd h (by simp)
          · rename_i s2 hrm
            have hEv2 : Evolves e s1 s2 := by
              split at hrm
              · obtain ⟨hw, herr, _⟩ := removeChild_effects hrm
                exact Evolves.of_errAt_preserved (hw e) herr
              · cases hrm
                exact Evolves.reflE e s1
            split at h
            · exact absurd h (by simp)
            · rename_i n2 hs2id
              cases h
              by_cases ht : n2.timer = true
              · rw [if_pos ht]
                obtain ⟨hwt, herrt⟩ := evolvesW_setNode_timer e hs2id
                refine ⟨(hEv1.transE hEv2).transE (Evolves.of_errAt_preserved hwt herrt), ?_⟩
                intro n' hn' hne'
                exact ((hCanc1 n' hn' hne').mono hEv2.toW).mono hwt
              · rw [if_neg ht]
                exact ⟨hEv1.transE hEv2,
                  fun n' hn' hne' => (hCanc1 n' hn' hne').mono hEv2.toW⟩
    have hD : ∀ id rm e s s', closedOKB s = true →
        dispatchCancel (fuel + 1) id rm (some e) s = .ok s' →
        Evolves e s s' ∧ (∀ n, s.node? id = some n → n.err = none → Cancelled s' e id) := by
      intro id rm e s s' hcl h
      simp only [dispatchCancel] at h
      split at h
      · exact absurd h (by simp)
      · rename_i n hn
        split at h
        · exact ihC _ _ _ _ _ hcl h
        · exact ihT _ _ _ _ _ hcl h
    refine ⟨hC, ?_, hD, hT⟩
    intro ids e s s' hcl h
    cases ids with
    | nil =>
      simp only [cancelChildren] at h
      cases h
      exact Evolves.reflE e s
    | cons c cs =>
      simp only [cancelChildren] at h
      split at h
      · exact absurd h (by simp)
      · rename_i s1 hd1
        have hEv1 := (ihD c false e s s1 hcl hd1).1
        exact hEv1.transE (ihCh cs e s1 s' (closedOKB_mono hEv1.toW hcl) h)

end Ctxt

namespace Ctxt

/-! ## Frame lemmas below a node index -/

theorem ctxOKB_mono {c : Ctx} {i j : Nat} (h : ctxOKB c i = true) (hij : i ≤ j) :
    ctxOKB c j = true := by
  induction c with
  | background => rfl
  | todo => rfl
  | cancelRef m =>
    simp only [ctxOKB, decide_eq_true_eq] at h ⊢
    exact Nat.lt_of_lt_of_le h hij
  | valueRef k v p ihp =>
    simp only [ctxOKB, Bool.and_eq_true] at h ⊢
    exact ⟨h.1, ihp h.2⟩

theorem parentsOKB_spec {s : State} {i : NodeId} {n : CNode}
    (h : parentsOKB s = true) (hn : s.node? i = some n) : ctxOKB n.parent i = true := by
  have hi : i ∈ List.range s.nodes.length := List.mem_range.mpr (node?_lt hn)
  have := (List.all_eq_true.mp h) i hi
  simp only [hn] at this
  exact this

/-- `Done()` on a context that only references nodes below `z` leaves
node `z` untouched. -/
theorem CtxDone_frame : ∀ (c : Ctx) (s : State) (r : Option ChanId × State)
    (z : NodeId), CtxDone c s = .ok r → ctxOKB c z = true →
    r.2.node? z = s.node? z
  | .background, s, r, z, h, _ => by
    simp only [CtxDone] at h
    cases h
    rfl
  | .todo, s, r, z, h, _ => by
    simp only [CtxDone] at h
    cases h
    rfl
  | .valueRef k v p, s, r, z, h, hok => by
    simp only [ctxOKB, Bool.and_eq_true] at hok
    exact CtxDone_frame p s r z h hok.2
  | .cancelRef j, s, r, z, h, hok => by
    simp only [ctxOKB, decide_eq_true_eq] at hok
    simp only [CtxDone] at h
    split at h
    · exact absurd h (by simp)
    · rename_i n hn
      split at h
      · cases h; rfl
      · cases h
        exact node?_setNode_ne s j _ (Nat.ne_of_lt hok).symm

/-- The sentinel lookup on a well-formed context finds a node below `z`. -/
theorem value_sentinel_below : ∀ (fuel : Nat) (c : Ctx) (s : State) (p z : NodeId),
    value fuel c .cancelCtxKey s = .ok (some (.cancelCtxRef p)) →
    ctxOKB c z = true → p < z
  | 0, c, s, p, z, h, _ => by simp [value] at h
  | fuel + 1, .background, s, p, z, h, _ => by simp [value] at h
  | fuel + 1, .todo, s, p, z, h, _ => by simp [value] at h
  | fuel + 1, .valueRef k v pc, s, p, z, h, hok => by
    simp only [ctxOKB, Bool.and_eq_true, Bool.not_eq_true', decide_eq_false_iff_not] at hok
    simp only [value] at h
    rw [if_neg (fun he => hok.1 he.symm)] at h
    exact value_sentinel_below fuel pc s p z h (by
      simpa using hok.2)
  | fuel + 1, .cancelRef j, s, p, z, h, hok => by
    simp only [ctxOKB, decide_eq_true_eq] at hok
    simp only [value, if_pos rfl] at h
    cases h
    exact hok

/-- `parentCancelCtx` on a well-formed context leaves node `z` untouched
and only finds ancestors below `z`. -/
theorem parentCancelCtx_frame {fuel : Nat} {c : Ctx} {s : State}
    {r : Option NodeId × State} {z : NodeId} (h : parentCancelCtx fuel c s = .ok r)
    (hok : ctxOKB c z = true) :
    r.2.node? z = s.node? z ∧ (∀ p, r.1 = some p → p < z) := by
  simp only [parentCancelCtx] at h
  split at h
  · exact absurd h (by simp)
  · rename_i dr dopt s1 hdone
    have hframe := CtxDone_frame c s (dopt, s1) z hdone hok
    split at h
    · cases h; exact ⟨hframe, fun p hp => Option.noConfusion hp⟩
    · rename_i d
      split at h
      · cases h; exact ⟨hframe, fun p hp => Option.noConfusion hp⟩
      · split at h
        · exact absurd h (by simp)
        · rename_i v hv
          split at h
          · rename_i p
            split at h
            · exact absurd h (by simp)
            · rename_i pn hp
              split at h
              · cases h
                refine ⟨hframe, fun q hq => ?_⟩
                have hpq := Option.some.inj hq
                subst hpq
                exact value_sentinel_below fuel c s1 _ z hv hok
              · cases h; exact ⟨hframe, fun p hp => Option.noConfusion hp⟩
          · cases h; exact ⟨hframe, fun p hp => Option.noConfusion hp⟩

/-- `removeChild` on a well-formed parent context leaves node `z`
untouched. -/
theorem removeChild_frame {fuel : Nat} {c : Ctx} {cid : NodeId} {s s' : State}
    {z : NodeId} (h : removeChild fuel c cid s = .ok s') (hok : ctxOKB c z = true) :
    s'.node? z = s.node? z := by
  simp only [removeChild] at h
  split at h
  · exact absurd h (by simp)
  · rename_i pr s1 hpc
    cases h
    exact (parentCancelCtx_frame hpc hok).1
  · rename_i pr p s1 hpc
    obtain ⟨hframe, hbelow⟩ := parentCancelCtx_frame hpc hok
    have hpz : p ≠ z := Nat.ne_of_lt (hbelow p rfl)
    split at h
    · exact absurd h (by simp)
    · rename_i pn hp
      split at h
      · cases h; exact hframe
      · rename_i cs hcs
        cases h
        rw [node?_setNode_ne s1 p _ (fun he => hpz he.symm), hframe]

end Ctxt

namespace Ctxt

/-- `cancelCtx.cancel` on an already cancelled node returns at once,
leaving the state untouched. -/
theorem cancelCtxCancel_stuck {fuel : Nat} {id : NodeId} {rm : Bool} {e : GoError}
    {s s' : State} {n : CNode} (hn : s.node? id = some n)
    (hsome : n.err.isSome = true)
    (h : cancelCtxCancel fuel id rm (some e) s = .ok s') : s' = s := by
  cases fuel with
  | zero => simp [cancelCtxCancel] at h
  | succ fuel =>
    simp only [cancelCtxCancel, hn, hsome, if_true] at h
    cases h
    rfl

/-- **C1** — Cancellation is idempotent.  For any cancellable or timed
scope: a first invocation of `cancel` (on a live node) sets `err` and
closes the done signal; any later invocation, with any
`removeFromParent` flag and any non-nil error, leaves the node's `err`,
done channel and children set exactly as they were — so `Err()` returns
the first error forever. -/
theorem C1_cancel_idempotent {fuel : Nat} {id : NodeId} {rm : Bool} {e : GoError}
    {s s' : State} {n : CNode}
    (hn : s.node? id = some n)
    (hpar : parentsOKB s = true) (hcl : closedOKB s = true)
    (h : dispatchCancel fuel id rm (some e) s = .ok s') :
    (n.err = none → Cancelled s' e id) ∧
    (∀ e0, n.err = some e0 → ∃ n', s'.node? id = some n' ∧
      n'.err = some e0 ∧ n'.done = n.done ∧ n'.children = n.children) := by
  constructor
  · intro hne
    exact ((cancel_evolves fuel).2.2.1 id rm e s s' hcl h).2 n hn hne
  · intro e0 he0
    have hsome : n.err.isSome = true := by rw [he0]; rfl
    cases fuel with
    | zero => simp [dispatchCancel] at h
    | succ fuel =>
      simp only [dispatchCancel, hn] at h
      have hok : ctxOKB n.parent id = true := parentsOKB_spec hpar hn
      split at h
      · -- cancelCtx
        have := cancelCtxCancel_stuck hn hsome h
        subst this
        exact ⟨n, hn, he0, rfl, rfl⟩
      · -- timerCtx
        cases fuel with
        | zero => simp [timerCtxCancel] at h
        | succ fuel =>
          simp only [timerCtxCancel] at h
          split at h
          · exact absurd h (by simp)
          · rename_i s1 hc1
            have hs1 : s1 = s := cancelCtxCancel_stuck hn hsome hc1
            subst hs1
            split at h
            · exact absurd h (by simp)
            · rename_i n0 hn0
              rw [hn] at hn0
              cases hn0
              split at h
              · exact absurd h (by simp)
              · rename_i s2 hrm
                have hs2 : s2.node? id = some n := by
                  split at hrm
                  · rw [removeChild_frame hrm hok]
                    exact hn
                  · cases hrm
                    exact hn
                split at h
                · rename_i hs2id
                  rw [hs2] at hs2id
                  exact absurd hs2id (by simp)
                · rename_i n2 hs2id
                  rw [hs2] at hs2id
                  cases hs2id
                  cases h
                  by_cases ht : n.timer = true
                  · rw [if_pos ht]
                    exact ⟨_, node?_setNode_self _ hs2, he0, rfl, rfl⟩
                  · rw [if_neg ht]
                    exact ⟨n, hs2, he0, rfl, rfl⟩

end Ctxt

namespace Ctxt

/-! ## Invariant I1 -/

/-- Invariant I1: a cancelled node has an empty children set. -/
def Inv1 (s : State) : Prop :=
  ∀ m, (errAt s m).isSome = true → childrenOfD s m = []

/-- I1 is preserved by any full evolution. -/
theorem Inv1_of_evolves {e : GoError} {s s' : State} (hEv : Evolves e s s')
    (hInv : Inv1 s) : Inv1 s' := by
  intro m hsome
  cases hm' : s'.node? m with
  | none => simp [childrenOfD, hm']
  | some n' =>
    have hlt : m < s'.nodes.length := node?_lt hm'
    rw [hEv.toW.lenEq] at hlt
    cases hm : s.node? m with
    | none =>
      have hge := List.get?_eq_none.mp (by rw [State.node?] at hm; exact hm)
      exact absurd hlt (Nat.not_lt.mpr hge)
    | some n =>
      obtain ⟨n'', hm'', hev⟩ := hEv.toW.node m n hm
      rw [hm'] at hm''
      cases hm''
      simp only [childrenOfD, hm']
      cases hne : n.err with
      | some e0 =>
        have hemp : childrenOfD s m = [] := hInv m (by simp [errAt, hm, hne])
        simp only [childrenOfD, hm] at hemp
        exact List.eq_nil_iff_forall_not_mem.mpr (fun x hx => by
          have := hev.childSub x hx
          rw [hemp] at this
          exact absurd this (List.not_mem_nil x))
      | none =>
        refine hEv.childEmpty m n n' hm hm' hne ?_
        simp only [errAt, hm'] at hsome
        exact hsome

/-- A cancel call with a nil error never completes: it panics (or runs
out of fuel). -/
theorem dispatchCancel_nil_error {fuel : Nat} {id : NodeId} {rm : Bool}
    {s s' : State} (h : dispatchCancel fuel id rm none s = .ok s') : False := by
  have hcc : ∀ fuel' id' rm' (s0 s0' : State),
      ¬ cancelCtxCancel fuel' id' rm' none s0 = .ok s0' := by
    intro fuel' id' rm' s0 s0' hk
    cases fuel' with
    | zero => simp [cancelCtxCancel] at hk
    | succ f => simp [cancelCtxCancel] at hk
  cases fuel with
  | zero => simp [dispatchCancel] at h
  | succ fuel =>
    simp only [dispatchCancel] at h
    split at h
    · exact absurd h (by simp)
    · split at h
      · exact hcc _ _ _ _ _ h
      · cases fuel with
        | zero => simp [timerCtxCancel] at h
        | succ f =>
          simp only [timerCtxCancel] at h
          split at h
          · exact absurd h (by simp)
          · rename_i s1 hk
            exact hcc _ _ _ _ _ hk

/-- Membership after a children-map insertion. -/
theorem mem_insertChild {x c : NodeId} {l : List NodeId}
    (h : x ∈ insertChild c l) : x ∈ l ∨ x = c := by
  simp only [insertChild] at h
  split at h
  · exact Or.inl h
  · rcases List.mem_append.mp h with h' | h'
    · exact Or.inl h'
    · exact Or.inr (List.mem_singleton.mp h')

/-- Children memberships never grow under a weak evolution. -/
theorem childrenOfD_sub_of_evolves {e : GoError} {s s' : State}
    (hw : EvolvesW e s s') (m x : NodeId) (hx : x ∈ childrenOfD s' m) :
    x ∈ childrenOfD s m := by
  cases hm : s.node? m with
  | none =>
    have hge : s.nodes.length ≤ m :=
      List.get?_eq_none.mp (by rw [State.node?] at hm; exact hm)
    have hm' : s'.node? m = none := by
      rw [State.node?]
      exact List.get?_eq_none.mpr (by rw [hw.lenEq]; exact hge)
    simp only [childrenOfD, hm'] at hx
    exact absurd hx (List.not_mem_nil x)
  | some nm =>
    obtain ⟨nm', hm', hev⟩ := hw.node m nm hm
    simp only [childrenOfD, hm'] at hx
    simp only [childrenOfD, hm]
    exact hev.childSub x hx

/-- **C3** — Invariant I1.  Once `err` is non-nil the children set is
empty and never regains an entry: a completed cancel preserves I1 and
leaves the cancelled node with an empty children set, and
`propagateCancel` preserves I1, adding a registration only for the new
child and only into a node whose `err` is still nil (re-checked under
that node's lock); an already-cancelled native ancestor causes the child
to be cancelled instead of registered. -/
theorem C3_invariant_I1 {fuel : Nat} {s : State}
    (hcl : closedOKB s = true) (hInv : Inv1 s) :
    (∀ id rm e s', dispatchCancel fuel id rm (some e) s = .ok s' →
      Inv1 s' ∧ (∀ n, s.node? id = some n → n.err = none →
        Cancelled s' e id ∧ childrenOfD s' id = [])) ∧
    (∀ parent child s', propagateCancel fuel parent child s = .ok s' →
      Inv1 s' ∧ (∀ m x, x ∈ childrenOfD s' m →
        x ∈ childrenOfD s m ∨ (x = child ∧ errAt s' m = none))) := by
  constructor
  · intro id rm e s' h
    obtain ⟨hEv, hCanc⟩ := (cancel_evolves fuel).2.2.1 id rm e s s' hcl h
    have hInv' := Inv1_of_evolves hEv hInv
    refine ⟨hInv', ?_⟩
    intro n hn hne
    have hc := hCanc n hn hne
    refine ⟨hc, ?_⟩
    obtain ⟨n', hn', herr', _⟩ := hc
    exact hInv' id (by simp [errAt, hn', herr'])
  · intro parent child s' h
    simp only [propagateCancel] at h
    split at h
    · exact absurd h (by simp)
    · rename_i dr dopt s1 hdone
      obtain ⟨hw1, herr1, hcl1, hch1, hlen1⟩ := CtxDone_effects parent s (dopt, s1) hdone
      have hcls1 : closedOKB s1 = true := by
        simp only [closedOKB] at hcl ⊢
        rw [hcl1]
        exact hcl
      have hInv1 : Inv1 s1 := by
        intro m hsome
        rw [herr1 m] at hsome
        rw [hch1 m]
        exact hInv m hsome
      split at h
      · cases h
        refine ⟨hInv1, fun m x hx => Or.inl ?_⟩
        rw [hch1 m] at hx
        exact hx
      · split at h
        · -- parent already done: cancel the child instead
          split at h
          · exact absurd h (by simp)
          · rename_i perr hperr
            cases perr with
            | none => exact absurd (dispatchCancel_nil_error h) (fun f => f)
            | some pe =>
              obtain ⟨hEv, _⟩ := (cancel_evolves fuel).2.2.1 child false pe s1 s' hcls1 h
              refine ⟨Inv1_of_evolves hEv hInv1, fun m x hx => Or.inl ?_⟩
              rw [← hch1 m]
              exact childrenOfD_sub_of_evolves hEv.toW m x hx
        · -- not yet done: find the native ancestor
          split at h
          · exact absurd h (by simp)
          · rename_i pr p s2 hpc
            obtain ⟨hw2, herr2, hcl2, hch2, hfound⟩ := parentCancelCtx_effects hpc
            have hcls2 : closedOKB s2 = true := by
              simp only [closedOKB] at hcls1 ⊢
              rw [hcl2]
              exact hcls1
            have hInv2 : Inv1 s2 := by
              intro m hsome
              rw [herr2 m] at hsome
              rw [hch2 m]
              exact hInv1 m hsome
            have hchain : ∀ m, childrenOfD s2 m = childrenOfD s m := by
              intro m
              rw [hch2 m, hch1 m]
            split at h
            · exact absurd h (by simp)
            · rename_i pn hp
              split at h
              · -- ancestor already cancelled: cancel the child instead
                rename_i hsome
                cases hpe : pn.err with
                | none =>
                  rw [hpe] at hsome
                  simp at hsome
                | some pe =>
                  rw [hpe] at h
                  obtain ⟨hEv, _⟩ :=
                    (cancel_evolves fuel).2.2.1 child false pe s2 s' hcls2 h
                  refine ⟨Inv1_of_evolves hEv hInv2, fun m x hx => Or.inl ?_⟩
                  rw [← hchain m]
                  exact childrenOfD_sub_of_evolves hEv.toW m x hx
              · -- live ancestor: register the child
                rename_i hnsome
                have hpe : pn.err = none := by
                  cases hpe' : pn.err
                  · rfl
                  · rw [hpe'] at hnsome
                    exact absurd rfl hnsome
                cases h
                refine ⟨?_, ?_⟩
                · intro m hsome
                  by_cases hmp : m = p
                  · subst hmp
                    simp [errAt, node?_setNode_self _ hp, hpe] at hsome
                  · simp only [errAt, node?_setNode_ne s2 p _ hmp] at hsome
                    simp only [childrenOfD, node?_setNode_ne s2 p _ hmp]
                    have := hInv2 m hsome
                    simp only [childrenOfD] at this
                    exact this
                · intro m x hx
                  by_cases hmp : m = p
                  · subst hmp
                    simp only [childrenOfD, node?_setNode_self _ hp] at hx
                    rcases mem_insertChild hx with h' | h'
                    · left
                      rw [← hchain m]
                      simp [childrenOfD, hp, h']
                    · right
                      refine ⟨h', ?_⟩
                      simp [errAt, node?_setNode_self _ hp, hpe]
                  · left
                    simp only [childrenOfD, node?_setNode_ne s2 p _ hmp] at hx
                    rw [← hchain m]
                    simp only [childrenOfD]
                    exact hx
          · -- no native ancestor: spawn the watcher goroutine
            rename_i pr s2 hpc
            obtain ⟨hw2, herr2, hcl2, hch2, hfound⟩ := parentCancelCtx_effects hpc
            have hchain : ∀ m, childrenOfD s2 m = childrenOfD s m := by
              intro m
              rw [hch2 m, hch1 m]
            cases h
            refine ⟨?_, ?_⟩
            · intro m hsome
              rw [show errAt (State.mk s2.nodes s2.closed s2.nextChan s2.now
                (s2.goroutines + 1) ((parent, child) :: s2.watchers)) m = errAt s2 m
                from rfl] at hsome
              rw [herr2 m] at hsome
              rw [show childrenOfD (State.mk s2.nodes s2.closed s2.nextChan s2.now
                (s2.goroutines + 1) ((parent, child) :: s2.watchers)) m = childrenOfD s2 m
                from rfl, hch2 m]
              exact hInv1 m hsome
            · intro m x hx
              rw [show childrenOfD (State.mk s2.nodes s2.closed s2.nextChan s2.now
                (s2.goroutines + 1) ((parent, child) :: s2.watchers)) m = childrenOfD s2 m
                from rfl] at hx
              rw [hchain m] at hx
              exact Or.inl hx

end Ctxt

namespace Ctxt

/-- **C6** — Propagation from an already-terminal parent.  When a child
is linked to a parent whose done channel is present and already closed,
the propagation protocol immediately cancels the child with the parent's
error: the child ends cancelled (err set, done closed), it is not
registered in any children set, and no watcher goroutine is spawned. -/
theorem C6_dead_parent {fuel : Nat} {parent : Ctx} {child : NodeId}
    {s s1 s' : State} {d : ChanId} {pe : GoError} {nc : CNode}
    (hdone : CtxDone parent s = .ok (some d, s1))
    (hclosed : s1.isClosed d = true)
    (hperr : CtxErr parent s1 = .ok (some pe))
    (hchild : s1.node? child = some nc) (hnc : nc.err = none)
    (hcl : closedOKB s = true)
    (hfresh : ∀ m, child ∉ childrenOfD s m)
    (h : propagateCancel fuel parent child s = .ok s') :
    Cancelled s' pe child ∧ (∀ m, child ∉ childrenOfD s' m) ∧
    s'.goroutines = s.goroutines ∧ s'.watchers = s.watchers := by
  obtain ⟨hw1, herr1, hcl1, hch1, hlen1⟩ := CtxDone_effects parent s (some d, s1) hdone
  have hcls1 : closedOKB s1 = true := by
    simp only [closedOKB] at hcl ⊢
    rw [show s1.closed = s.closed from hcl1]
    exact hcl
  simp only [propagateCancel] at h
  split at h
  · exact absurd h (by simp)
  · rename_i dr dopt s1' hdone'
    have heq := hdone.symm.trans hdone'
    simp only [Except.ok.injEq, Prod.mk.injEq] at heq
    obtain ⟨heq1, heq2⟩ := heq
    subst heq2
    split at h
    · exact absurd heq1 (by simp)
    · rename_i d2
      have hdd : d = d2 := by simpa using heq1
      subst hdd
      split at h
      · -- parent already closed: cancel the child
        split at h
        · exact absurd h (by simp)
        · rename_i perr hperr'
          have heqp := hperr.symm.trans hperr'
          simp only [Except.ok.injEq] at heqp
          subst heqp
          obtain ⟨hEv, hCanc⟩ :=
            (cancel_evolves fuel).2.2.1 child false pe s1 s' hcls1 h
          refine ⟨hCanc nc hchild hnc, ?_, ?_, ?_⟩
          · intro m hmem
            have h1 := childrenOfD_sub_of_evolves hEv.toW m child hmem
            rw [hch1 m] at h1
            exact hfresh m h1
          · rw [hEv.toW.gorEq]
            exact (hw1 pe).gorEq
          · rw [hEv.toW.watEq]
            exact (hw1 pe).watEq
      · rename_i hnotcl
        exact absurd hclosed hnotcl

end Ctxt

namespace Ctxt

/-- **C7** — Value shadowing and delegation.  Deriving twice with the
same key makes the inner binding win on lookup; a lookup of any other
key delegates one step to the parent (exact key equality); the root
context answers every lookup with "not found". -/
theorem C7_value_shadowing :
    (∀ (p : Ctx) (k : Key) (v1 v2 : Option GoVal) (c1 c2 : Ctx) (s : State) (fuel : Nat),
      WithValue (some p) (.mk true k) v1 = .ok c1 →
      WithValue (some c1) (.mk true k) v2 = .ok c2 →
      value (fuel + 1) c2 k s = .ok v2) ∧
    (∀ (p : Ctx) (k k' : Key) (v : Option GoVal) (s : State) (fuel : Nat),
      k' ≠ k → value (fuel + 1) (.valueRef k v p) k' s = value fuel p k' s) ∧
    (∀ (k : Key) (s : State) (fuel : Nat), value (fuel + 1) .background k s = .ok none) := by
  refine ⟨?_, ?_, ?_⟩
  · intro p k v1 v2 c1 c2 s fuel h1 h2
    simp only [WithValue, if_pos] at h1 h2
    cases h1
    cases h2
    simp [value]
  · intro p k k' v s fuel hne
    simp only [value, if_neg hne]
  · intro k s fuel
    rfl

/-- **C8** — Construction-time misuse panics.  A nil parent makes
`WithCancel`, `WithDeadline` and `WithValue` panic; a nil or
non-comparable key makes `WithValue` panic; and the internal cancel
entry point panics on a nil error — each with the panic message from the
source. -/
theorem C8_misuse_panics :
    (∀ fuel s, WithCancel fuel none s =
      .error (.panicked "cannot create context from nil parent")) ∧
    (∀ fuel d s, WithDeadline fuel none d s =
      .error (.panicked "cannot create context from nil parent")) ∧
    (∀ key val, WithValue none key val =
      .error (.panicked "cannot create context from nil parent")) ∧
    (∀ p val, WithValue (some p) .nilKey val = .error (.panicked "nil key")) ∧
    (∀ p k val, WithValue (some p) (.mk false k) val =
      .error (.panicked "key is not comparable")) ∧
    (∀ fuel id rm s, cancelCtxCancel (fuel + 1) id rm none s =
      .error (.panicked "context: internal error: missing cancel error")) :=
  ⟨fun _ _ => rfl, fun _ _ _ => rfl, fun _ _ => rfl, fun _ _ => rfl,
   fun _ _ _ => rfl, fun _ _ _ _ => rfl⟩

end Ctxt

namespace Ctxt

/-! ## Skeleton extension -/

/-- `SkelExt s s'` : every node of `s` still exists in `s'` with the same
identity fields (`kind`, `parent`, `deadline`), and an unarmed timer
stays unarmed.  Allocation, registration and cancellation all extend the
skeleton. -/
def SkelExt (s s' : State) : Prop :=
  ∀ m n, s.node? m = some n → ∃ n', s'.node? m = some n' ∧
    n'.kind = n.kind ∧ n'.parent = n.parent ∧ n'.deadline = n.deadline ∧
    (n.timer = false → n'.timer = false)

theorem SkelExt.reflS (s : State) : SkelExt s s :=
  fun _ n hm => ⟨n, hm, rfl, rfl, rfl, fun h => h⟩

theorem SkelExt.transS {s s' s'' : State} (h1 : SkelExt s s') (h2 : SkelExt s' s'') :
    SkelExt s s'' := by
  intro m n hm
  obtain ⟨n1, hm1, hk1, hp1, hd1, ht1⟩ := h1 m n hm
  obtain ⟨n2, hm2, hk2, hp2, hd2, ht2⟩ := h2 m n1 hm1
  exact ⟨n2, hm2, hk2.trans hk1, hp2.trans hp1, hd2.trans hd1,
    fun h => ht2 (ht1 h)⟩

theorem skelExt_of_evolvesW {e : GoError} {s s' : State} (h : EvolvesW e s s') :
    SkelExt s s' := by
  intro m n hm
  obtain ⟨n', hm', hev⟩ := h.node m n hm
  exact ⟨n', hm', hev.kindEq, hev.parentEq, hev.deadlineEq, hev.timerF⟩

theorem skelExt_setNode {s : State} {id : NodeId} {n n2 : CNode}
    (hn : s.node? id = some n) (hk : n2.kind = n.kind) (hp : n2.parent = n.parent)
    (hd : n2.deadline = n.deadline) (ht : n.timer = false → n2.timer = false) :
    SkelExt s (s.setNode id n2) := by
  intro m nm hm
  by_cases hmid : m = id
  · subst hmid
    rw [hm] at hn
    cases hn
    exact ⟨n2, node?_setNode_self _ hm, hk, hp, hd, ht⟩
  · exact ⟨nm, by rw [node?_setNode_ne s id _ hmid]; exact hm,
      rfl, rfl, rfl, fun h => h⟩

/-- Allocating a new node at the end of the heap extends the skeleton. -/
theorem skelExt_append (s : State) (nn : CNode) :
    SkelExt s (State.mk (s.nodes ++ [nn]) s.closed s.nextChan s.now
      s.goroutines s.watchers) := by
  intro m n hm
  refine ⟨n, ?_, rfl, rfl, rfl, fun h => h⟩
  rw [State.node?] at hm ⊢
  simp only
  rw [List.get?_append (node?_lt hm)]
  exact hm

/-- The freshly allocated node is at index `s.nodes.length`. -/
theorem node?_append_self (s : State) (nn : CNode) :
    (State.mk (s.nodes ++ [nn]) s.closed s.nextChan s.now
      s.goroutines s.watchers).node? s.nodes.length = some nn := by
  rw [State.node?]
  simp only
  exact List.get?_concat_length s.nodes nn

/-- A completed `propagateCancel` extends the skeleton. -/
theorem propagateCancel_skel {fuel : Nat} {parent : Ctx} {child : NodeId}
    {s s' : State} (hcl : closedOKB s = true)
    (h : propagateCancel fuel parent child s = .ok s') : SkelExt s s' := by
  simp only [propagateCancel] at h
  split at h
  · exact absurd h (by simp)
  · rename_i dr dopt s1 hdone
    obtain ⟨hw1, herr1, hcl1, hch1, hlen1⟩ := CtxDone_effects parent s (dopt, s1) hdone
    have hcls1 : closedOKB s1 = true := by
      simp only [closedOKB] at hcl ⊢
      rw [show s1.closed = s.closed from hcl1]
      exact hcl
    have hsk1 : SkelExt s s1 := skelExt_of_evolvesW (hw1 .canceled)
    split at h
    · cases h
      exact hsk1
    · split at h
      · split at h
        · exact absurd h (by simp)
        · rename_i perr hperr
          cases perr with
          | none => exact absurd (dispatchCancel_nil_error h) (fun f => f)
          | some pe =>
            obtain ⟨hEv, _⟩ := (cancel_evolves fuel).2.2.1 child false pe s1 s' hcls1 h
            exact hsk1.transS (skelExt_of_evolvesW hEv.toW)
      · split at h
        · exact absurd h (by simp)
        · rename_i pr p s2 hpc
          obtain ⟨hw2, herr2, hcl2, hch2, hfound⟩ := parentCancelCtx_effects hpc
          have hcls2 : closedOKB s2 = true := by
            simp only [closedOKB] at hcls1 ⊢
            rw [show s2.closed = s1.closed from hcl2]
            exact hcls1
          have hsk2 : SkelExt s s2 := hsk1.transS (skelExt_of_evolvesW (hw2 .canceled))
          split at h
          · exact absurd h (by simp)
          · rename_i pn hp
            split at h
            · rename_i hsome
              cases hpe : pn.err with
              | none =>
                rw [hpe] at hsome
                simp at hsome
              | some pe =>
                rw [hpe] at h
                obtain ⟨hEv, _⟩ := (cancel_evolves fuel).2.2.1 child false pe s2 s' hcls2 h
                exact hsk2.transS (skelExt_of_evolvesW hEv.toW)
            · cases h
              exact hsk2.transS (skelExt_setNode hp rfl rfl rfl (fun h => h))
        · rename_i pr s2 hpc
          obtain ⟨hw2, herr2, hcl2, hch2, hfound⟩ := parentCancelCtx_effects hpc
          have hsk2 : SkelExt s s2 := hsk1.transS (skelExt_of_evolvesW (hw2 .canceled))
          cases h
          intro m n hm
          obtain ⟨n', hm', hrest⟩ := hsk2 m n hm
          exact ⟨n', hm', hrest⟩

/-- `Deadline()` only reads skeleton fields, so it transfers along
`SkelExt`. -/
theorem CtxDeadline_congr : ∀ (fuel : Nat) (c : Ctx) (s s' : State) (r : Option Int),
    SkelExt s s' → CtxDeadline fuel c s = .ok r → CtxDeadline fuel c s' = .ok r
  | 0, c, s, s', r, _, h => by simp [CtxDeadline] at h
  | fuel + 1, .background, s, s', r, _, h => h
  | fuel + 1, .todo, s, s', r, _, h => h
  | fuel + 1, .valueRef k v p, s, s', r, hsk, h =>
    CtxDeadline_congr fuel p s s' r hsk h
  | fuel + 1, .cancelRef id, s, s', r, hsk, h => by
    simp only [CtxDeadline] at h ⊢
    split at h
    · exact absurd h (by simp)
    · rename_i n hn
      obtain ⟨n', hn', hk, hp, hd, _⟩ := hsk id n hn
      rw [hn']
      split at h
      · rename_i htimer
        simp only [hk, htimer, hd]
        exact h
      · rename_i htimer
        simp only [hk, htimer, hp]
        exact CtxDeadline_congr fuel n.parent s s' r hsk h

end Ctxt

namespace Ctxt

/-- **C4** — Deadline dominance.  When the parent's deadline `t1` is
already sooner than the requested deadline `d`, `WithDeadline` degrades
to `WithCancel`: the two calls return identical results, and the derived
scope is a plain `cancelCtx` with no timer whose `Deadline()` reports
`t1`, so the tighter deadline wins. -/
theorem C4_deadline_dominance {fuel : Nat} {parent : Ctx} {s : State} {t1 d : Int}
    (hcl : closedOKB s = true)
    (hdl : CtxDeadline fuel parent s = .ok (some t1)) (hlt : t1 < d) :
    WithDeadline fuel (some parent) d s = WithCancel fuel (some parent) s ∧
    (∀ ctx op s', WithCancel fuel (some parent) s = .ok (ctx, op, s') →
      ctx = .cancelRef s.nodes.length ∧ op = ⟨s.nodes.length, true⟩ ∧
      CtxDeadline (fuel + 1) ctx s' = .ok (some t1) ∧
      ∃ n, s'.node? s.nodes.length = some n ∧ n.kind = .cancelK ∧ n.timer = false) := by
  constructor
  · simp only [WithDeadline, hdl]
    rw [if_pos (by simp [hlt])]
  · intro ctx op s' h
    simp only [WithCancel] at h
    split at h
    · exact absurd h (by simp)
    · rename_i s2 hprop
      cases h
      have hclA : closedOKB (State.mk (s.nodes ++ [newCancelCtx parent]) s.closed
          s.nextChan s.now s.goroutines s.watchers) = true := hcl
      have hskP := propagateCancel_skel hclA hprop
      have hskAll := (skelExt_append s (newCancelCtx parent)).transS hskP
      obtain ⟨n', hn', hk, hp, hd2, ht⟩ :=
        hskP s.nodes.length (newCancelCtx parent) (node?_append_self s (newCancelCtx parent))
      refine ⟨rfl, rfl, ?_, n', hn', hk, ht rfl⟩
      simp only [CtxDeadline]
      rw [hn']
      simp only [hk, newCancelCtx, hp]
      exact CtxDeadline_congr fuel parent s _ (some t1) hskAll hdl

end Ctxt

namespace Ctxt

/-- A completed `propagateCancel` keeps every closed channel closed. -/
theorem propagateCancel_closedOK {fuel : Nat} {parent : Ctx} {child : NodeId}
    {s s' : State} (hcl : closedOKB s = true)
    (h : propagateCancel fuel parent child s = .ok s') : closedOKB s' = true := by
  simp only [propagateCancel] at h
  split at h
  · exact absurd h (by simp)
  · rename_i dr dopt s1 hdone
    obtain ⟨hw1, herr1, hcl1, hch1, hlen1⟩ := CtxDone_effects parent s (dopt, s1) hdone
    have hcls1 : closedOKB s1 = true := by
      simp only [closedOKB] at hcl ⊢
      rw [show s1.closed = s.closed from hcl1]
      exact hcl
    split at h
    · cases h
      exact hcls1
    · split at h
      · split at h
        · exact absurd h (by simp)
        · rename_i perr hperr
          cases perr with
          | none => exact absurd (dispatchCancel_nil_error h) (fun f => f)
          | some pe =>
            obtain ⟨hEv, _⟩ := (cancel_evolves fuel).2.2.1 child false pe s1 s' hcls1 h
            exact closedOKB_mono hEv.toW hcls1
      · split at h
        · exact absurd h (by simp)
        · rename_i pr p s2 hpc
          obtain ⟨hw2, herr2, hcl2, hch2, hfound⟩ := parentCancelCtx_effects hpc
          have hcls2 : closedOKB s2 = true := by
            simp only [closedOKB] at hcls1 ⊢
            rw [show s2.closed = s1.closed from hcl2]
            exact hcls1
          split at h
          · exact absurd h (by simp)
          · rename_i pn hp
            split at h
            · rename_i hsome
              cases hpe : pn.err with
              | none =>
                rw [hpe] at hsome
                simp at hsome
              | some pe =>
                rw [hpe] at h
                obtain ⟨hEv, _⟩ := (cancel_evolves fuel).2.2.1 child false pe s2 s' hcls2 h
                exact closedOKB_mono hEv.toW hcls2
            · cases h
              exact hcls2
        · rename_i pr s2 hpc
          obtain ⟨hw2, herr2, hcl2, hch2, hfound⟩ := parentCancelCtx_effects hpc
          have hcls2 : closedOKB s2 = true := by
            simp only [closedOKB] at hcls1 ⊢
            rw [show s2.closed = s1.closed from hcl2]
            exact hcls1
          cases h
          exact hcls2

/-- **C10** — The stored deadline of a `timerCtx` is permanent.
(1) `Deadline()` on a `timerCtx` returns the stored timestamp with the
present flag true, on every call.  (2) A non-degraded `WithDeadline`
stores exactly the requested timestamp in the new `timerCtx`.
(3) Cancelling a `timerCtx` (any flag, any error) stops and clears its
timer but leaves the stored deadline (and the node's kind) unchanged. -/
theorem C10_timer_deadline_stable :
    (∀ (s : State) (fuel : Nat) (id : NodeId) (n : CNode),
      s.node? id = some n → n.kind = .timerK →
      CtxDeadline (fuel + 1) (.cancelRef id) s = .ok (some n.deadline)) ∧
    (∀ fuel (parent : Ctx) (s : State) (d : Int) cur ctx op s',
      closedOKB s = true →
      CtxDeadline fuel parent s = .ok cur →
      (∀ cur', cur = some cur' → ¬ cur' < d) →
      WithDeadline fuel (some parent) d s = .ok (ctx, op, s') →
      ctx = .cancelRef s.nodes.length ∧
      ∃ n, s'.node? s.nodes.length = some n ∧ n.kind = .timerK ∧ n.deadline = d) ∧
    (∀ fuel (id : NodeId) (rm : Bool) (e : GoError) (s s' : State) (n : CNode),
      closedOKB s = true →
      s.node? id = some n → n.kind = .timerK →
      dispatchCancel fuel id rm (some e) s = .ok s' →
      ∃ n', s'.node? id = some n' ∧ n'.kind = .timerK ∧
        n'.deadline = n.deadline ∧ n'.timer = false) := by
  refine ⟨?_, ?_, ?_⟩
  · intro s fuel id n hn hk
    simp only [CtxDeadline]
    rw [hn]
    simp [hk]
  · intro fuel parent s d cur ctx op s' hcl hdl hnolt h
    simp only [WithDeadline, hdl] at h
    rw [if_neg (by
      intro hcond
      cases cur with
      | none => simp at hcond
      | some cur' =>
        simp only [decide_eq_true_eq] at hcond
        exact hnolt cur' rfl hcond)] at h
    split at h
    · exact absurd h (by simp)
    · rename_i s2 hprop
      have hclA : closedOKB (State.mk (s.nodes ++
          [CNode.mk parent .timerK none none none false d]) s.closed
          s.nextChan s.now s.goroutines s.watchers) = true := hcl
      have hskP := propagateCancel_skel hclA hprop
      obtain ⟨n1, hn1, hk1, hp1, hd1, ht1⟩ :=
        hskP s.nodes.length (CNode.mk parent .timerK none none none false d)
          (node?_append_self s _)
      have hcls2 : closedOKB s2 = true := propagateCancel_closedOK hclA hprop
      split at h
      · -- deadline already passed: cancel immediately
        split at h
        · exact absurd h (by simp)
        · rename_i s3 hcanc
          obtain ⟨hEv, _⟩ :=
            (cancel_evolves fuel).2.2.2 s.nodes.length true .deadlineExceeded s2 s3
              hcls2 hcanc
          obtain ⟨n2, hn2, hk2, hp2, hd2, _⟩ := skelExt_of_evolvesW hEv.toW _ n1 hn1
          cases h
          exact ⟨rfl, n2, hn2, by rw [hk2, hk1], by rw [hd2, hd1]⟩
      · -- future deadline: arm the timer if still live
        split at h
        · exact absurd h (by simp)
        · rename_i n2 hn2
          rw [hn1] at hn2
          cases hn2
          cases h
          by_cases he : n1.err = none
          · rw [if_pos he]
            exact ⟨rfl, _, node?_setNode_self _ hn1, by rw [hk1], by rw [hd1]⟩
          · rw [if_neg he]
            exact ⟨rfl, n1, hn1, by rw [hk1], by rw [hd1]⟩
  · intro fuel id rm e s s' n hcl hn hk h
    cases fuel with
    | zero => simp [dispatchCancel] at h
    | succ fuel =>
      simp only [dispatchCancel, hn] at h
      rw [hk] at h
      simp only at h
      cases fuel with
      | zero => simp [timerCtxCancel] at h
      | succ fuel =>
        simp only [timerCtxCancel] at h
        split at h
        · exact absurd h (by simp)
        · rename_i s1 hc1
          obtain ⟨hEv1, _⟩ := (cancel_evolves fuel).1 id false e s s1 hcl hc1
          have hsk1 := skelExt_of_evolvesW hEv1.toW
          split at h
          · exact absurd h (by simp)
          · rename_i n0 hn0
            split at h
            · exact absurd h (by simp)
            · rename_i s2 hrm
              have hsk2 : SkelExt s1 s2 := by
                split at hrm
                · obtain ⟨hw, _, _⟩ := removeChild_effects hrm
                  exact skelExt_of_evolvesW (hw e)
                · cases hrm
                  exact SkelExt.reflS s1
              split at h
              · exact absurd h (by simp)
              · rename_i n2 hn2'
                obtain ⟨n2', hn2'', hk2, hp2, hd2, _⟩ := (hsk1.transS hsk2) id n hn
                rw [hn2'] at hn2''
                cases hn2''
                cases h
                by_cases ht : n2.timer = true
                · rw [if_pos ht]
                  exact ⟨_, node?_setNode_self _ hn2', by rw [hk2, hk], hd2, rfl⟩
                · rw [if_neg ht]
                  exact ⟨n2, hn2', by rw [hk2, hk], hd2,
                    Bool.not_eq_true n2.timer ▸ ht⟩

end Ctxt

namespace Ctxt

/-! ## Lemmas for `WithDeadline` on a live parent -/

/-- Allocating a fresh node commutes with `Done()` on a context that
only references existing nodes. -/
theorem CtxDone_append : ∀ (c : Ctx) (s : State) (r : Option ChanId) (t : State)
    (nn : CNode), ctxOKB c s.nodes.length = true → CtxDone c s = .ok (r, t) →
    CtxDone c (State.mk (s.nodes ++ [nn]) s.closed s.nextChan s.now
      s.goroutines s.watchers) =
    .ok (r, State.mk (t.nodes ++ [nn]) t.closed t.nextChan t.now
      t.goroutines t.watchers)
  | .background, s, r, t, nn, _, h => by
    simp only [CtxDone] at h ⊢
    cases h
    rfl
  | .todo, s, r, t, nn, _, h => by
    simp only [CtxDone] at h ⊢
    cases h
    rfl
  | .valueRef k v p, s, r, t, nn, hok, h => by
    simp only [ctxOKB, Bool.and_eq_true] at hok
    exact CtxDone_append p s r t nn hok.2 h
  | .cancelRef j, s, r, t, nn, hok, h => by
    simp only [ctxOKB, decide_eq_true_eq] at hok
    simp only [CtxDone] at h ⊢
    have hget : (s.nodes ++ [nn]).get? j = s.nodes.get? j := List.get?_append hok
    rw [show (State.mk (s.nodes ++ [nn]) s.closed s.nextChan s.now
      s.goroutines s.watchers).node? j = (s.nodes ++ [nn]).get? j from rfl, hget]
    split at h
    · rename_i hn
      rw [show s.node? j = s.nodes.get? j from rfl] at hn
      rw [hn]
      exact absurd h (by simp)
    · rename_i n hn
      rw [show s.node? j = s.nodes.get? j from rfl] at hn
      rw [hn]
      split at h
      · rename_i d hd
        cases h
        simp [hd]
      · rename_i hd
        cases h
        simp [hd, List.set_append_left _ _ hok]

/-- A second `Done()` call returns the same channel without further
state change. -/
theorem CtxDone_idem : ∀ (c : Ctx) (s : State) (r : Option ChanId) (t : State),
    CtxDone c s = .ok (r, t) → CtxDone c t = .ok (r, t)
  | .background, s, r, t, h => by
    simp only [CtxDone] at h ⊢
    cases h
    rfl
  | .todo, s, r, t, h => by
    simp only [CtxDone] at h ⊢
    cases h
    rfl
  | .valueRef k v p, s, r, t, h => CtxDone_idem p s r t h
  | .cancelRef j, s, r, t, h => by
    simp only [CtxDone] at h ⊢
    split at h
    · exact absurd h (by simp)
    · rename_i n hn
      split at h
      · rename_i d hd
        cases h
        rw [hn]
        simp [hd]
      · rename_i hd
        cases h
        rw [show (State.mk (s.nodes.set j { n with done := some s.nextChan }) s.closed
          (s.nextChan + 1) s.now s.goroutines s.watchers).node? j =
          (s.nodes.set j { n with done := some s.nextChan }).get? j from rfl,
          List.get?_set_eq_of_lt _ (node?_lt hn)]

/-- The two-sided err/done coherence survives allocation of a fresh,
live, channel-less node. -/
theorem errDoneOKB_append {s : State} (nn : CNode) (hnn : nn.err = none)
    (hnd : nn.done = none) (h : errDoneOKB s = true) :
    errDoneOKB (State.mk (s.nodes ++ [nn]) s.closed s.nextChan s.now
      s.goroutines s.watchers) = true := by
  simp only [errDoneOKB, List.all_append, Bool.and_eq_true] at h ⊢
  constructor
  · exact h
  · simp [hnn, hnd]

/-- The err/done coherence and the channel bound survive `Done()`'s lazy
materialization. -/
theorem errDoneOKB_CtxDone : ∀ (c : Ctx) (s : State) (r : Option ChanId) (t : State),
    CtxDone c s = .ok (r, t) → errDoneOKB s = true → closedLtNextB s = true →
    errDoneOKB t = true ∧ closedLtNextB t = true ∧ t.closed = s.closed
  | .background, s, r, t, h, he, hn => by
    simp only [CtxDone] at h
    cases h
    exact ⟨he, hn, rfl⟩
  | .todo, s, r, t, h, he, hn => by
    simp only [CtxDone] at h
    cases h
    exact ⟨he, hn, rfl⟩
  | .valueRef k v p, s, r, t, h, he, hn => errDoneOKB_CtxDone p s r t h he hn
  | .cancelRef j, s, r, t, h, he, hn => by
    simp only [CtxDone] at h
    split at h
    · exact absurd h (by simp)
    · rename_i n hnj
      split at h
      · cases h
        exact ⟨he, hn, rfl⟩
      · rename_i hd
        cases h
        refine ⟨?_, ?_, rfl⟩
        · have hmem : ∀ m ∈ s.nodes, (match m.err, m.done with
            | some _, some d => s.isClosed d
            | some _, none => false
            | none, some d => !(s.isClosed d)
            | none, none => true) = true := List.all_eq_true.mp he
          have hne : n.err = none := by
            cases hne' : n.err with
            | none => rfl
            | some e0 =>
              have := hmem n (List.get?_mem hnj)
              rw [hne', hd] at this
              exact absurd this (by simp)
          simp only [errDoneOKB, List.all_eq_true]
          intro m hm
          rcases List.mem_or_eq_of_mem_set hm with hm' | hm'
          · have := hmem m hm'
            simp only [State.isClosed] at this ⊢
            exact this
          · subst hm'
            have hnot : s.nextChan ∉ s.closed := by
              intro hcon
              have := (List.all_eq_true.mp hn) _ hcon
              simp at this
            simp only [hne, State.isClosed]
            simp [List.elem_iff, hnot]
        · simp only [closedLtNextB, List.all_eq_true] at hn ⊢
          intro c hc
          have := hn c hc
          simp only [decide_eq_true_eq] at this ⊢
          exact Nat.lt_succ_of_lt this

end Ctxt

namespace Ctxt

/-- In a coherent state, a node whose done channel is still open has no
error. -/
theorem errDoneOKB_live {s : State} {p : NodeId} {pn : CNode} {d : ChanId}
    (he : errDoneOKB s = true) (hp : s.node? p = some pn) (hd : pn.done = some d)
    (hcl : s.isClosed d = false) : pn.err = none := by
  have hmem := (List.all_eq_true.mp he) pn (List.get?_mem hp)
  cases hpe : pn.err with
  | none => rfl
  | some e0 =>
    rw [hpe, hd] at hmem
    simp only at hmem
    rw [hcl] at hmem
    exact absurd hmem (by simp)

/-- The state returned by `parentCancelCtx` is the state after its
`parent.Done()` call. -/
theorem parentCancelCtx_state {fuel : Nat} {c : Ctx} {s : State}
    {r : Option NodeId × State} (h : parentCancelCtx fuel c s = .ok r) :
    ∃ dopt, CtxDone c s = .ok (dopt, r.2) := by
  simp only [parentCancelCtx] at h
  split at h
  · exact absurd h (by simp)
  · rename_i dr dopt s1 hdone
    refine ⟨dopt, ?_⟩
    split at h
    · cases h; exact hdone
    · split at h
      · cases h; exact hdone
      · split at h
        · exact absurd h (by simp)
        · split at h
          · split at h
            · exact absurd h (by simp)
            · split at h
              · cases h; exact hdone
              · cases h; exact hdone
          · cases h; exact hdone

/-- `propagateCancel` below a live parent leaves the child node (and the
clock) untouched: the child is registered or watched, never cancelled. -/
theorem propagateCancel_live_frame {fuel : Nat} {parent : Ctx} {child : NodeId}
    {sA s1A s4 : State} {dopt : Option ChanId}
    (hdoneA : CtxDone parent sA = .ok (dopt, s1A))
    (hlive : dopt = none ∨ ∃ dd, dopt = some dd ∧ s1A.isClosed dd = false)
    (herrdoneA : errDoneOKB sA = true) (hnextA : closedLtNextB sA = true)
    (hokA : ctxOKB parent child = true)
    (h : propagateCancel fuel parent child sA = .ok s4) :
    s4.node? child = sA.node? child ∧ s4.now = sA.now := by
  obtain ⟨herrdone1, hnext1, hclosed1⟩ :=
    errDoneOKB_CtxDone parent sA dopt s1A hdoneA herrdoneA hnextA
  have hframeA : s1A.node? child = sA.node? child := CtxDone_frame parent sA _ child hdoneA hokA
  have hnowA : s1A.now = sA.now := (CtxDone_effects parent sA _ hdoneA).1 .canceled |>.nowEq
  simp only [propagateCancel] at h
  split at h
  · exact absurd h (by simp)
  · rename_i dr dopt' s1' hdone'
    have heq := hdoneA.symm.trans hdone'
    simp only [Except.ok.injEq, Prod.mk.injEq] at heq
    obtain ⟨heq1, heq2⟩ := heq
    subst heq2
    split at h
    · cases h
      exact ⟨hframeA, hnowA⟩
    · rename_i dd
      have hdd : dopt = some dd := heq1.symm ▸ rfl
      obtain ⟨dd', hdd', hopen⟩ := hlive.resolve_left (by rw [hdd]; simp)
      have hsymm : dd = dd' := by
        rw [hdd] at hdd'
        exact Option.some.inj hdd'
      subst hsymm
      split at h
      · rename_i hcl'
        exact absurd hcl' (by rw [hopen]; simp)
      · split at h
        · exact absurd h (by simp)
        · rename_i pr p s2 hpc
          obtain ⟨doptI, hdoneI⟩ := parentCancelCtx_state hpc
          have hidem := CtxDone_idem parent sA dopt s1A hdoneA
          have heqI := hidem.symm.trans hdoneI
          simp only [Except.ok.injEq, Prod.mk.injEq] at heqI
          obtain ⟨heqI1, heqI2⟩ := heqI
          subst heqI2
          obtain ⟨hframe2, hbelow2⟩ := parentCancelCtx_frame hpc hokA
          split at h
          · exact absurd h (by simp)
          · rename_i pn hp
            obtain ⟨pn', dI, hp', hpd', hdc', hdoneII⟩ :=
              ((parentCancelCtx_effects hpc).2.2.2.2) p rfl
            rw [hp] at hp'
            cases hp'
            have heqII := hidem.symm.trans hdoneII
            simp only [Except.ok.injEq, Prod.mk.injEq] at heqII
            have hdIdd : dI = dd := by
              have := heqII.1
              rw [hdd] at this
              simpa using this.symm
            subst hdIdd
            have hpe : pn.err = none := errDoneOKB_live herrdone1 hp hpd' hopen
            split at h
            · rename_i hsome
              rw [hpe] at hsome
              exact absurd hsome (by simp)
            · cases h
              refine ⟨?_, hnowA⟩
              rw [node?_setNode_ne s1A p _ (Nat.ne_of_lt (hbelow2 p rfl)).symm]
              exact hframeA
        · rename_i pr s2 hpc
          obtain ⟨doptI, hdoneI⟩ := parentCancelCtx_state hpc
          have hidem := CtxDone_idem parent sA dopt s1A hdoneA
          have heqI := hidem.symm.trans hdoneI
          simp only [Except.ok.injEq, Prod.mk.injEq] at heqI
          obtain ⟨heqI1, heqI2⟩ := heqI
          subst heqI2
          cases h
          exact ⟨hframeA, hnowA⟩

/-- Invoking a cancel operation on an already-cancelled `timerCtx` with
a cleared timer and no detach request leaves the state exactly
unchanged. -/
theorem timer_cancel_noop {fuel : Nat} {id : NodeId} {e : GoError} {s s' : State}
    {n : CNode} (hn : s.node? id = some n) (hsome : n.err.isSome = true)
    (hk : n.kind = .timerK) (ht : n.timer = false)
    (h : dispatchCancel fuel id false (some e) s = .ok s') : s' = s := by
  cases fuel with
  | zero => simp [dispatchCancel] at h
  | succ fuel =>
    simp only [dispatchCancel, hn] at h
    rw [hk] at h
    simp only at h
    cases fuel with
    | zero => simp [timerCtxCancel] at h
    | succ fuel =>
      simp only [timerCtxCancel] at h
      split at h
      · exact absurd h (by simp)
      · rename_i s1 hc1
        have hs1 := cancelCtxCancel_stuck hn hsome hc1
        subst hs1
        split at h
        · exact absurd h (by simp)
        · rename_i n0 hn0
          rw [hn] at hn0
          cases hn0
          split at h
          · exact absurd h (by simp)
          · rename_i s2 hrm
            split at hrm
            · rename_i hcon
              exact absurd hcon (by simp)
            · cases hrm
              split at h
              · exact absurd h (by simp)
              · rename_i n2 hn2
                rw [hn] at hn2
                cases hn2
                cases h
                simp [ht]

end Ctxt

namespace Ctxt

/-- **C5 (amended)** — Immediate expiry on a live parent.  For a parent
that is not already terminal (done signal absent or not yet closed) and
whose own deadline (if any) is not sooner than the requested one, a
`WithDeadline` whose deadline is already in the past cancels the new
scope immediately: its `Err()` is `DeadlineExceeded` without any
waiting, no timer is registered, and a cancel operation is still
returned whose later invocation leaves the state exactly unchanged. -/
theorem C5_immediate_expiry {fuel : Nat} {parent : Ctx} {s s1 : State}
    {d : Int} {cur : Option Int} {dopt : Option ChanId}
    {ctx : Ctx} {op : CancelOp} {s' : State}
    (hcl : closedOKB s = true)
    (hok : ctxOKB parent s.nodes.length = true)
    (herrdone : errDoneOKB s = true)
    (hnext : closedLtNextB s = true)
    (hdl : CtxDeadline fuel parent s = .ok cur)
    (hnolt : ∀ cur', cur = some cur' → ¬ cur' < d)
    (hdone : CtxDone parent s = .ok (dopt, s1))
    (hlive : dopt = none ∨ ∃ dd, dopt = some dd ∧ s1.isClosed dd = false)
    (hpast : d ≤ s.now)
    (h : WithDeadline fuel (some parent) d s = .ok (ctx, op, s')) :
    ctx = .cancelRef s.nodes.length ∧ op = ⟨s.nodes.length, false⟩ ∧
    CtxErr ctx s' = .ok (some .deadlineExceeded) ∧
    (∃ n, s'.node? s.nodes.length = some n ∧ n.err = some .deadlineExceeded ∧
      n.timer = false ∧ n.kind = .timerK) ∧
    (∀ fuel2 s'', runCancelOp fuel2 op s' = .ok s'' → s'' = s') := by
  simp only [WithDeadline, hdl] at h
  rw [if_neg (by
    intro hcond
    cases cur with
    | none => simp at hcond
    | some cur' =>
      simp only [decide_eq_true_eq] at hcond
      exact hnolt cur' rfl hcond)] at h
  split at h
  · exact absurd h (by simp)
  · rename_i s4 hprop
    have hdoneA := CtxDone_append parent s dopt s1
      (CNode.mk parent .timerK none none none false d) hok hdone
    have hliveA : dopt = none ∨ ∃ dd, dopt = some dd ∧
        (State.mk (s1.nodes ++ [CNode.mk parent .timerK none none none false d])
          s1.closed s1.nextChan s1.now s1.goroutines s1.watchers).isClosed dd = false := by
      rcases hlive with h1 | ⟨dd, h1, h2⟩
      · exact Or.inl h1
      · exact Or.inr ⟨dd, h1, h2⟩
    have herrdoneA := errDoneOKB_append
      (CNode.mk parent .timerK none none none false d) rfl rfl herrdone
    obtain ⟨hchild4, hnow4⟩ := propagateCancel_live_frame hdoneA hliveA herrdoneA
      hnext hok hprop
    have hchildA := node?_append_self s (CNode.mk parent .timerK none none none false d)
    rw [hchildA] at hchild4
    have hnow : s4.now = s.now := hnow4
    have hclA : closedOKB (State.mk (s.nodes ++
        [CNode.mk parent .timerK none none none false d]) s.closed
        s.nextChan s.now s.goroutines s.watchers) = true := hcl
    have hcl4 : closedOKB s4 = true := propagateCancel_closedOK hclA hprop
    rw [if_pos (by rw [hnow]; omega)] at h
    split at h
    · exact absurd h (by simp)
    · rename_i s5 hcanc
      cases h
      -- unfold the timerCtx.cancel call
      cases fuel with
      | zero => simp [timerCtxCancel] at hcanc
      | succ fuel =>
        simp only [timerCtxCancel] at hcanc
        split at hcanc
        · exact absurd hcanc (by simp)
        · rename_i u1 hc1
          obtain ⟨hEv1, hCanc1⟩ :=
            (cancel_evolves fuel).1 s.nodes.length false .deadlineExceeded s4 u1 hcl4 hc1
          obtain ⟨nf, hnf, hnferr, df, hnfd, hnfcl⟩ := hCanc1 _ hchild4 rfl
          obtain ⟨nf', hnf', hevf⟩ := hEv1.toW.node _ _ hchild4
          rw [hnf] at hnf'
          cases hnf'
          have hnft : nf.timer = false := hevf.timerF rfl
          have hnfk : nf.kind = .timerK := hevf.kindEq
          split at hcanc
          · exact absurd hcanc (by simp)
          · rename_i n0 hn0
            rw [hchild4] at hn0
            cases hn0
            split at hcanc
            · exact absurd hcanc (by simp)
            · rename_i u2 hrm
              have hu2 : u2.node? s.nodes.length = some nf := by
                split at hrm
                · rw [removeChild_frame hrm hok]
                  exact hnf
                · cases hrm
                  exact hnf
              split at hcanc
              · rename_i hu2id
                rw [hu2] at hu2id
                exact absurd hu2id (by simp)
              · rename_i n2 hn2
                rw [hu2] at hn2
                cases hn2
                cases hcanc
                rw [if_neg (by rw [hnft]; simp)]
                refine ⟨rfl, rfl, ?_, ⟨nf, hu2, hnferr, hnft, hnfk⟩, ?_⟩
                · simp only [CtxErr]
                  rw [hu2]
                  simp [hnferr]
                · intro fuel2 s'' hrun
                  exact timer_cancel_noop hu2 (by rw [hnferr]; rfl) hnfk hnft hrun

end Ctxt

namespace Ctxt

/-- The state after `a, cancelA := WithCancel(Background())`. -/
def c5StateA : State :=
  { nodes := [CNode.mk Ctx.background .cancelK none none none false 0],
    closed := [0], nextChan := 1, now := 0, goroutines := 0, watchers := [] }

/-- The state after invoking `cancelA`. -/
def c5StateB : State :=
  { nodes := [CNode.mk Ctx.background .cancelK (some 0) none
      (some .canceled) false 0],
    closed := [0], nextChan := 1, now := 0, goroutines := 0, watchers := [] }

/-- The state after `WithDeadline(a, -5)` on the cancelled parent. -/
def c5StateC : State :=
  { nodes := [CNode.mk Ctx.background .cancelK (some 0) none
      (some .canceled) false 0,
      CNode.mk (Ctx.cancelRef 0) .timerK (some 0) none
      (some .canceled) false (-5)],
    closed := [0], nextChan := 1, now := 0, goroutines := 0, watchers := [] }

/-- **C5 counterexample** — on an already-cancelled parent, a
`WithDeadline` whose deadline is in the past yields a scope whose
`Err()` is `Canceled`, not `DeadlineExceeded`: the claim "for every
parent ... Err() is DeadlineExceeded" fails at this input. -/
theorem C5_counterexample :
    WithCancel 20 (some Background) initState =
      .ok (Ctx.cancelRef 0, CancelOp.mk 0 true, c5StateA) ∧
    runCancelOp 20 (CancelOp.mk 0 true) c5StateA = .ok c5StateB ∧
    (-5 : Int) ≤ c5StateB.now ∧
    WithDeadline 20 (some (Ctx.cancelRef 0)) (-5) c5StateB =
      .ok (Ctx.cancelRef 1, CancelOp.mk 1 false, c5StateC) ∧
    CtxErr (Ctx.cancelRef 1) c5StateC = .ok (some .canceled) ∧
    some GoError.canceled ≠ some GoError.deadlineExceeded :=
  ⟨rfl, rfl, by decide, rfl, rfl, by decide⟩

end Ctxt

namespace Ctxt

/-! ## Live reachability, orphans, and the fan-out lemma -/

/-- `LReach s x z` : there is a path from `x` to `z` along children
edges whose interior nodes (all but the endpoint) are live.  A cancel
run starting at `x` can only modify nodes it can live-reach. -/
inductive LReach (s : State) (x : NodeId) : NodeId → Prop
  | refl : LReach s x x
  | step {m c : NodeId} : LReach s x m → errAt s m = none →
      c ∈ childrenOfD s m → LReach s x c

theorem LReach.transL {s : State} {x y z : NodeId}
    (h1 : LReach s x y) (h2 : LReach s y z) : LReach s x z := by
  induction h2 with
  | refl => exact h1
  | step hr hlive hmem ih => exact .step ih hlive hmem

/-- Errors only get set by an evolution, so a node live after the
evolution was live before it. -/
theorem errAt_none_of_evolves {e : GoError} {s s' : State} {m : NodeId}
    (hw : EvolvesW e s s') (h : errAt s' m = none) : errAt s m = none := by
  cases hm : s.node? m with
  | none => simp [errAt, hm]
  | some n =>
    cases hne : n.err with
    | none => simp [errAt, hm, hne]
    | some e0 =>
      obtain ⟨n', hm', hev⟩ := hw.node m n hm
      have hthis := hev.errSome (by rw [hne]; rfl)
      rw [hne] at hthis
      have h' : n'.err = none := by simpa [errAt, hm'] using h
      rw [h'] at hthis
      exact absurd hthis (by simp)

/-- Live-reachability only shrinks under an evolution. -/
theorem LReach_anti {e : GoError} {s s' : State} (hw : EvolvesW e s s')
    {x z : NodeId} (h : LReach s' x z) : LReach s x z := by
  induction h with
  | refl => exact .refl
  | step hr hlive hmem ih =>
    exact .step ih (errAt_none_of_evolves hw hlive)
      (childrenOfD_sub_of_evolves hw _ _ hmem)

/-- An orphan: a live node that is not registered in any live node's
children set.  A cancel run starting elsewhere can never reach it. -/
def Orphan (s : State) (z : NodeId) : Prop :=
  errAt s z = none ∧ ∀ w, errAt s w = none → z ∉ childrenOfD s w

theorem orphan_no_lreach {s : State} {x z : NodeId} (ho : Orphan s z)
    (hxz : x ≠ z) (h : LReach s x z) : False := by
  cases h with
  | refl => exact hxz rfl
  | step hr hlive hmem => exact ho.2 _ hlive hmem

theorem orphan_preserved {e : GoError} {s s' : State} {z : NodeId}
    (ho : Orphan s z) (hz : s'.node? z = s.node? z) (hw : EvolvesW e s s') :
    Orphan s' z := by
  refine ⟨by rw [errAt, hz]; exact ho.1, ?_⟩
  intro w hlive hmem
  exact ho.2 w (errAt_none_of_evolves hw hlive)
    (childrenOfD_sub_of_evolves hw w z hmem)

end Ctxt

namespace Ctxt

/-- A cancel run (without detach) leaves every node it cannot live-reach
untouched. -/
theorem cancel_frame : ∀ fuel : Nat,
    (∀ id e s s' z, closedOKB s = true →
      cancelCtxCancel fuel id false (some e) s = .ok s' →
      ¬ LReach s id z → s'.node? z = s.node? z) ∧
    (∀ ids e s s' z, closedOKB s = true →
      cancelChildren fuel ids e s = .ok s' →
      (∀ x ∈ ids, ¬ LReach s x z) → s'.node? z = s.node? z) ∧
    (∀ id e s s' z, closedOKB s = true →
      dispatchCancel fuel id false (some e) s = .ok s' →
      ¬ LReach s id z → s'.node? z = s.node? z) ∧
    (∀ id e s s' z, closedOKB s = true →
      timerCtxCancel fuel id false (some e) s = .ok s' →
      ¬ LReach s id z → s'.node? z = s.node? z) := by
  intro fuel
  induction fuel with
  | zero =>
    refine ⟨fun id e s s' z _ h _ => absurd h (by simp [cancelCtxCancel]),
      fun ids e s s' z _ h _ => ?_,
      fun id e s s' z _ h _ => absurd h (by simp [dispatchCancel]),
      fun id e s s' z _ h _ => absurd h (by simp [timerCtxCancel])⟩
    cases ids with
    | nil =>
      simp only [cancelChildren] at h
      cases h
      rfl
    | cons c cs => exact absurd h (by simp [cancelChildren])
  | succ fuel ih =>
    obtain ⟨ihC, ihCh, ihD, ihT⟩ := ih
    have hC : ∀ id e s s' z, closedOKB s = true →
        cancelCtxCancel (fuel + 1) id false (some e) s = .ok s' →
        ¬ LReach s id z → s'.node? z = s.node? z := by
      intro id e s s' z hcl h hnr
      have hz : z ≠ id := fun he => hnr (he ▸ LReach.refl)
      simp only [cancelCtxCancel] at h
      split at h
      · exact absurd h (by simp)
      · rename_i n hn
        split at h
        · cases h
          rfl
        · rename_i hguard
          have hne : n.err = none := by
            cases hne' : n.err
            · rfl
            · rw [hne'] at hguard
              exact absurd rfl hguard
          have herrAt : errAt s id = none := by simp [errAt, hn, hne]
          obtain ⟨hw1, ⟨n1, hid1, hn1e, d1, hd1, hdc1⟩, hoth1, hclok1⟩ :=
            transition_step e hn hne hcl
          split at h
          · exact absurd h (by simp)
          · rename_i s2 hch
            have hchF := ihCh (n.children.getD []) e _ s2 z hclok1 hch (by
              intro x hx hLr
              have hLs := LReach_anti hw1 hLr
              have hmem : x ∈ childrenOfD s id := by
                simp only [childrenOfD, hn]
                exact hx
              exact hnr ((LReach.step LReach.refl herrAt hmem).transL hLs))
            split at h
            · rename_i hcon
              exact absurd hcon (by simp)
            · split at h
              · cases h
                rw [hchF, hoth1 z hz]
              · rename_i n2 hn2
                cases h
                rw [node?_setNode_ne s2 id _ hz, hchF, hoth1 z hz]
    have hT : ∀ id e s s' z, closedOKB s = true →
        timerCtxCancel (fuel + 1) id false (some e) s = .ok s' →
        ¬ LReach s id z → s'.node? z = s.node? z := by
      intro id e s s' z hcl h hnr
      have hz : z ≠ id := fun he => hnr (he ▸ LReach.refl)
      simp only [timerCtxCancel] at h
      split at h
      · exact absurd h (by simp)
      · rename_i s1 hc1
        have hf1 := ihC id e s s1 z hcl hc1 hnr
        split at h
        · exact absurd h (by simp)
        · rename_i n hn
          split at h
          · exact absurd h (by simp)
          · rename_i s2 hrm
            split at hrm
            · rename_i hcon
              exact absurd hcon (by simp)
            · cases hrm
              split at h
              · exact absurd h (by simp)
              · rename_i n2 hn2
                cases h
                split
                · rw [node?_setNode_ne s1 id _ hz, hf1]
                · rw [hf1]
    have hD : ∀ id e s s' z, closedOKB s = true →
        dispatchCancel (fuel + 1) id false (some e) s = .ok s' →
        ¬ LReach s id z → s'.node? z = s.node? z := by
      intro id e s s' z hcl h hnr
      simp only [dispatchCancel] at h
      split at h
      · exact absurd h (by simp)
      · rename_i n hn
        split at h
        · exact ihC id e s s' z hcl h hnr
        · exact ihT id e s s' z hcl h hnr
    refine ⟨hC, ?_, hD, hT⟩
    intro ids e s s' z hcl h hall
    cases ids with
    | nil =>
      simp only [cancelChildren] at h
      cases h
      rfl
    | cons c cs =>
      simp only [cancelChildren] at h
      split at h
      · exact absurd h (by simp)
      · rename_i s1 hd1
        have hEv1 := ((cancel_evolves fuel).2.2.1 c false e s s1 hcl hd1).1
        have hf1 := ihD c e s s1 z hcl hd1 (hall c (List.mem_cons_self c cs))
        have hfrest := ihCh cs e s1 s' z (closedOKB_mono hEv1.toW hcl) h (by
          intro x hx hLr
          exact hall x (List.mem_cons_of_mem c hx) (LReach_anti hEv1.toW hLr))
        rw [hfrest, hf1]

end Ctxt

namespace Ctxt

theorem errAt_congr {s s' : State} {m : NodeId} (h : s'.node? m = s.node? m) :
    errAt s' m = errAt s m := by
  rw [errAt, errAt, h]

theorem childrenOfD_congr {s s' : State} {m : NodeId}
    (h : s'.node? m = s.node? m) : childrenOfD s' m = childrenOfD s m := by
  unfold childrenOfD
  rw [h]


/-- The fan-out lemma: a run of the children-cancellation loop cancels
every orphaned member of the list, and every uniquely-registered live
child of such a member.  (After the parent's transition its registered
children are orphans, so the loop hypothesis is re-established one
level down.) -/
theorem foldhit : ∀ fuel : Nat, ∀ (ids : List NodeId) (e : GoError) (t t' : State),
    closedOKB t = true →
    cancelChildren fuel ids e t = .ok t' →
    ∀ m, m ∈ ids → Orphan t m → (t.node? m).isSome = true →
    Cancelled t' e m ∧
    (∀ g, g ∈ childrenOfD t m → (∀ w, g ∈ childrenOfD t w → w = m) →
      errAt t g = none → (t.node? g).isSome = true → g ≠ m →
      Cancelled t' e g) := by
  intro fuel
  induction fuel using Nat.strong_induction_on with
  | _ fuel IH =>
    intro ids e t t' hcl h m hm ho hsome
    cases ids with
    | nil => exact absurd hm (List.not_mem_nil m)
    | cons c cs =>
      cases fuel with
      | zero => exact absurd h (by simp [cancelChildren])
      | succ f1 =>
        simp only [cancelChildren] at h
        split at h
        · exact absurd h (by simp)
        · rename_i u hdu
          have hEvU : Evolves e t u := ((cancel_evolves f1).2.2.1 c false e t u hcl hdu).1
          have hclU : closedOKB u = true := closedOKB_mono hEvU.toW hcl
          have hEvT' : Evolves e u t' := (cancel_evolves f1).2.1 cs e u t' hclU h
          by_cases hmc : m = c
          · subst hmc
            have core : ∀ fk v, fk < f1 + 1 →
                cancelCtxCancel fk m false (some e) t = .ok v →
                Cancelled v e m ∧
                (∀ g, g ∈ childrenOfD t m → (∀ w, g ∈ childrenOfD t w → w = m) →
                  errAt t g = none → (t.node? g).isSome = true → g ≠ m →
                  Cancelled v e g) := by
              intro fk v hltf hcc
              obtain ⟨nc, hnc⟩ := Option.isSome_iff_exists.mp hsome
              have hnce : nc.err = none := by
                have he := ho.1
                simpa [errAt, hnc] using he
              have hCancM : Cancelled v e m :=
                ((cancel_evolves fk).1 m false e t v hcl hcc).2 nc hnc hnce
              refine ⟨hCancM, ?_⟩
              intro g hg huniq herrg hsomeg hgm
              cases fk with
              | zero => exact absurd hcc (by simp [cancelCtxCancel])
              | succ fk =>
                simp only [cancelCtxCancel] at hcc
                split at hcc
                · exact absurd hcc (by simp)
                · rename_i n hn
                  rw [hnc] at hn
                  injection hn with hn
                  subst hn
                  split at hcc
                  · rename_i hguard
                    rw [hnce] at hguard
                    exact absurd hguard (by simp)
                  · rename_i hguard
                    obtain ⟨hw1, ⟨n1, hid1, hn1e, d1, hd1, hdc1⟩, hoth1, hclok1⟩ :=
                      transition_step e hnc hnce hcl
                    split at hcc
                    · exact absurd hcc (by simp)
                    · rename_i t2 hch
                      have hgmem : g ∈ nc.children.getD [] := by
                        simp only [childrenOfD, hnc] at hg
                        exact hg
                      have horphG : Orphan (match nc.done with
                          | none => t.setNode m { nc with err := some e, done := some closedchan }
                          | some d => (t.setNode m { nc with err := some e }).closeChan d) g := by
                        refine ⟨by rw [errAt_congr (hoth1 g hgm)]; exact herrg, ?_⟩
                        intro w hwlive hwmem
                        by_cases hwm : w = m
                        · rw [hwm] at hwlive
                          simp [errAt, hid1, hn1e] at hwlive
                        · rw [childrenOfD_congr (hoth1 w hwm)] at hwmem
                          exact hwm (huniq w hwmem)
                      have hsomeG : ((match nc.done with
                          | none => t.setNode m { nc with err := some e, done := some closedchan }
                          | some d => (t.setNode m { nc with err := some e }).closeChan d).node? g).isSome = true := by
                        rw [hoth1 g hgm]
                        exact hsomeg
                      have hIHg := IH fk (by omega) (nc.children.getD []) e _ t2
                        hclok1 hch g hgmem horphG hsomeG
                      have hCg2 : Cancelled t2 e g := hIHg.1
                      split at hcc
                      · rename_i hcon
                        exact absurd hcon (by simp)
                      · split at hcc
                        · cases hcc
                          exact hCg2
                        · rename_i n2 hn2
                          cases hcc
                          obtain ⟨hw3, _⟩ := evolvesW_setNode_children e none hn2
                            (fun x hx => absurd hx (List.not_mem_nil x))
                          exact hCg2.mono hw3
            cases f1 with
            | zero => exact absurd hdu (by simp [dispatchCancel])
            | succ f2 =>
              simp only [dispatchCancel] at hdu
              split at hdu
              · exact absurd hdu (by simp)
              · rename_i n hn
                split at hdu
                · obtain ⟨hCm, hCgs⟩ := core f2 u (by omega) hdu
                  exact ⟨hCm.mono hEvT'.toW,
                    fun g hg huniq herrg hsg hgm =>
                      (hCgs g hg huniq herrg hsg hgm).mono hEvT'.toW⟩
                · cases f2 with
                  | zero => exact absurd hdu (by simp [timerCtxCancel])
                  | succ f3 =>
                    simp only [timerCtxCancel] at hdu
                    split at hdu
                    · exact absurd hdu (by simp)
                    · rename_i u1 hcc1
                      obtain ⟨hCm, hCgs⟩ := core f3 u1 (by omega) hcc1
                      split at hdu
                      · exact absurd hdu (by simp)
                      · rename_i n0 hn0
                        split at hdu
                        · exact absurd hdu (by simp)
                        · rename_i s2 hrm
                          split at hrm
                          · rename_i hcon
                            exact absurd hcon (by simp)
                          · cases hrm
                            split at hdu
                            · exact absurd hdu (by simp)
                            · rename_i n2 hn2
                              cases hdu
                              have hwT : EvolvesW e u1 (if n2.timer = true then
                                  u1.setNode m { n2 with timer := false } else u1) := by
                                by_cases ht : n2.timer = true
                                · rw [if_pos ht]
                                  exact (evolvesW_setNode_timer e hn2).1
                                · rw [if_neg ht]
                                  exact EvolvesW.reflW e u1
                              exact ⟨(hCm.mono hwT).mono hEvT'.toW,
                                fun g hg huniq herrg hsg hgm =>
                                  ((hCgs g hg huniq herrg hsg hgm).mono hwT).mono hEvT'.toW⟩
          · have hmcs : m ∈ cs := by
              cases List.mem_cons.mp hm with
              | inl h' => exact absurd h' hmc
              | inr h' => exact h'
            have hnLr : ¬ LReach t c m := fun hLr =>
              orphan_no_lreach ho (fun hcm => hmc hcm.symm) hLr
            have hfm : u.node? m = t.node? m :=
              (cancel_frame f1).2.2.1 c e t u m hcl hdu hnLr
            have hoU : Orphan u m := orphan_preserved ho hfm hEvU.toW
            have hsomeU : (u.node? m).isSome = true := by rw [hfm]; exact hsome
            have hIH := IH f1 (by omega) cs e u t' hclU h m hmcs hoU hsomeU
            refine ⟨hIH.1, ?_⟩
            intro g hg huniq herrg hsg hgm
            by_cases hgc : g = c
            · subst hgc
              obtain ⟨ng, hng⟩ := Option.isSome_iff_exists.mp hsg
              have hnge : ng.err = none := by simpa [errAt, hng] using herrg
              have hCg : Cancelled u e g :=
                ((cancel_evolves f1).2.2.1 g false e t u hcl hdu).2 ng hng hnge
              exact hCg.mono hEvT'.toW
            · have hnLrG : ¬ LReach t c g := by
                intro hLr
                cases hLr with
                | refl => exact hgc rfl
                | step hr hlive hmem =>
                  exact hnLr ((huniq _ hmem) ▸ hr)
              have hfg : u.node? g = t.node? g :=
                (cancel_frame f1).2.2.1 c e t u g hcl hdu hnLrG
              have hgU : g ∈ childrenOfD u m := by
                rw [childrenOfD_congr hfm]
                exact hg
              have huniqU : ∀ w, g ∈ childrenOfD u w → w = m := by
                intro w hw
                exact huniq w (childrenOfD_sub_of_evolves hEvU.toW w g hw)
              have herrU : errAt u g = none := by rw [errAt_congr hfg]; exact herrg
              have hsgU : (u.node? g).isSome = true := by rw [hfg]; exact hsg
              exact hIH.2 g hgU huniqU herrU hsgU hgm

end Ctxt

namespace Ctxt

/-- A child registered anywhere has a strictly larger index than the
registering node (children are allocated after their parents). -/
theorem childIncB_spec {s : State} (h : childIncB s = true) {i c : NodeId}
    (hc : c ∈ childrenOfD s i) : i < c := by
  by_cases hi : i < s.nodes.length
  · simp only [childIncB, List.all_eq_true, List.mem_range, decide_eq_true_eq] at h
    exact h i hi c hc
  · have hnone : s.node? i = none := by
      rw [State.node?]
      exact List.get?_eq_none.mpr (Nat.le_of_not_lt hi)
    simp only [childrenOfD, hnone] at hc
    exact absurd hc (List.not_mem_nil c)

/-- A node registered in two children sets is registered under one and
the same parent. -/
theorem uniqParentsB_spec {s : State} (h : uniqParentsB s = true) {i j x : NodeId}
    (hi : x ∈ childrenOfD s i) (hj : x ∈ childrenOfD s j) : i = j := by
  have hilt : i < s.nodes.length := by
    by_contra hlt
    have hnone : s.node? i = none := by
      rw [State.node?]
      exact List.get?_eq_none.mpr (Nat.le_of_not_lt hlt)
    simp only [childrenOfD, hnone] at hi
    exact absurd hi (List.not_mem_nil x)
  have hjlt : j < s.nodes.length := by
    by_contra hlt
    have hnone : s.node? j = none := by
      rw [State.node?]
      exact List.get?_eq_none.mpr (Nat.le_of_not_lt hlt)
    simp only [childrenOfD, hnone] at hj
    exact absurd hj (List.not_mem_nil x)
  simp only [uniqParentsB, List.all_eq_true, List.mem_range] at h
  have hij := h i hilt j hjlt
  by_cases heq : i = j
  · exact heq
  · exfalso
    rw [decide_eq_false heq, Bool.false_or, List.all_eq_true] at hij
    have hc := hij x hi
    rw [Bool.not_eq_true'] at hc
    have hm : (childrenOfD s j).contains x = true := by
      simpa only [List.elem_iff] using hj
    rw [hm] at hc
    exact absurd hc (by simp)

/-- **C2** — Propagation along the fast path.  In a well-indexed state
(children strictly after parents, no double registration), if `c` is
registered in `p`'s children set and `g` in `c`'s, with all three still
live, then a completed `cancelCtx.cancel` on `p` with error `e` leaves
`p`, `c` and `g` each with `err = e` and a closed done channel — the
whole chain is cancelled synchronously, before the call returns. -/
theorem C2_cancel_propagation {fuel : Nat} {e : GoError} {t t' : State}
    {p c g : NodeId} {rm : Bool}
    (hcl : closedOKB t = true) (hinc : childIncB t = true)
    (huq : uniqParentsB t = true)
    (herrp : errAt t p = none) (herrc : errAt t c = none)
    (herrg : errAt t g = none)
    (hsc : (t.node? c).isSome = true) (hsg : (t.node? g).isSome = true)
    (hcp : c ∈ childrenOfD t p) (hgc : g ∈ childrenOfD t c)
    (hrun : cancelCtxCancel fuel p rm (some e) t = .ok t') :
    Cancelled t' e p ∧ Cancelled t' e c ∧ Cancelled t' e g := by
  have hnpx : ∃ np, t.node? p = some np := by
    cases hq : t.node? p with
    | none => simp [childrenOfD, hq] at hcp
    | some np => exact ⟨np, rfl⟩
  obtain ⟨np, hnp⟩ := hnpx
  have hnpe : np.err = none := by simpa [errAt, hnp] using herrp
  have hCp : Cancelled t' e p :=
    ((cancel_evolves fuel).1 p rm e t t' hcl hrun).2 np hnp hnpe
  have hpc : p < c := childIncB_spec hinc hcp
  have hcg : c < g := childIncB_spec hinc hgc
  have hcnep : c ≠ p := Nat.ne_of_gt hpc
  have hgnp : g ≠ p := Nat.ne_of_gt (Nat.lt_trans hpc hcg)
  cases fuel with
  | zero => exact absurd hrun (by simp [cancelCtxCancel])
  | succ f1 =>
    simp only [cancelCtxCancel] at hrun
    split at hrun
    · exact absurd hrun (by simp)
    · rename_i n hn
      rw [hnp] at hn
      injection hn with hn
      subst hn
      split at hrun
      · rename_i hguard
        rw [hnpe] at hguard
        exact absurd hguard (by simp)
      · rename_i hguard
        obtain ⟨hw1, ⟨n1, hid1, hn1e, d1, hd1, hdc1⟩, hoth1, hclok1⟩ :=
          transition_step e hnp hnpe hcl
        split at hrun
        · exact absurd hrun (by simp)
        · rename_i t2 hch
          have hcmem : c ∈ np.children.getD [] := by
            simpa only [childrenOfD, hnp] using hcp
          have horphC : Orphan (match np.done with
              | none => t.setNode p { np with err := some e, done := some closedchan }
              | some d => (t.setNode p { np with err := some e }).closeChan d) c := by
            refine ⟨by rw [errAt_congr (hoth1 c hcnep)]; exact herrc, ?_⟩
            intro w hwlive hwmem
            by_cases hwp : w = p
            · rw [hwp] at hwlive
              simp [errAt, hid1, hn1e] at hwlive
            · rw [childrenOfD_congr (hoth1 w hwp)] at hwmem
              exact hwp (uniqParentsB_spec huq hwmem hcp)
          have hsomeC : ((match np.done with
              | none => t.setNode p { np with err := some e, done := some closedchan }
              | some d => (t.setNode p { np with err := some e }).closeChan d).node? c).isSome = true := by
            rw [hoth1 c hcnep]
            exact hsc
          have hFH := foldhit f1 (np.children.getD []) e _ t2 hclok1 hch c
            hcmem horphC hsomeC
          have hCc2 : Cancelled t2 e c := hFH.1
          have hCg2 : Cancelled t2 e g := by
            refine hFH.2 g ?_ ?_ ?_ ?_ (Nat.ne_of_gt hcg)
            · rw [childrenOfD_congr (hoth1 c hcnep)]
              exact hgc
            · intro w hw
              exact uniqParentsB_spec huq (childrenOfD_sub_of_evolves hw1 w g hw) hgc
            · rw [errAt_congr (hoth1 g hgnp)]
              exact herrg
            · rw [hoth1 g hgnp]
              exact hsg
          split at hrun
          · split at hrun
            · rename_i hs2id
              have hEv2 := (cancel_evolves f1).2.1 _ e _ t2 hclok1 hch
              obtain ⟨n2, hn2, _⟩ := hEv2.toW.node p n1 hid1
              rw [hs2id] at hn2
              exact absurd hn2 (by simp)
            · rename_i n2 hs2id
              obtain ⟨hw3, _⟩ := evolvesW_setNode_children e none hs2id
                (fun x hx => absurd hx (List.not_mem_nil x))
              obtain ⟨hw4, _, _⟩ := removeChild_effects hrun
              exact ⟨hCp, (hCc2.mono hw3).mono (hw4 e), (hCg2.mono hw3).mono (hw4 e)⟩
          · split at hrun
            · rename_i hs2id
              have hEv2 := (cancel_evolves f1).2.1 _ e _ t2 hclok1 hch
              obtain ⟨n2, hn2, _⟩ := hEv2.toW.node p n1 hid1
              rw [hs2id] at hn2
              exact absurd hn2 (by simp)
            · rename_i n2 hs2id
              cases hrun
              obtain ⟨hw3, _⟩ := evolvesW_setNode_children e none hs2id
                (fun x hx => absurd hx (List.not_mem_nil x))
              exact ⟨hCp, hCc2.mono hw3, hCg2.mono hw3⟩

/-- A three-node chain `0 → 1 → 2`, all live and registered. -/
def c2In : State :=
  { nodes := [CNode.mk Ctx.background .cancelK none (some [1]) none false 0,
      CNode.mk (Ctx.cancelRef 0) .cancelK none (some [2]) none false 0,
      CNode.mk (Ctx.cancelRef 1) .cancelK none none none false 0],
    closed := [0], nextChan := 1, now := 0, goroutines := 0, watchers := [] }

/-- The state after cancelling the root of the three-node chain. -/
def c2Out : State :=
  match cancelCtxCancel 9 0 false (some .canceled) c2In with
  | .ok s => s
  | .error _ => c2In

/-- Witness for C2: cancelling the root of a concrete three-node chain
cancels the root, the child and the grandchild. -/
theorem C2_cancel_propagation_witness :
    Cancelled c2Out .canceled 0 ∧ Cancelled c2Out .canceled 1 ∧
      Cancelled c2Out .canceled 2 :=
  @C2_cancel_propagation 9 .canceled c2In c2Out 0 1 2 false (by decide) (by decide)
    (by decide) rfl rfl rfl rfl rfl (by decide) (by decide) rfl

end Ctxt

namespace Ctxt

/-- Every member of the children list gets a `callEv` entry event in the
loop's trace. -/
theorem cancelChildrenTr_calls : ∀ fuel : Nat, ∀ (ids : List NodeId) (e : GoError)
    (s : State) (tr : List Ev) (s' : State),
    cancelChildrenTr fuel ids e s = .ok (tr, s') →
    ∀ c, c ∈ ids → Ev.callEv c ∈ tr := by
  intro fuel
  induction fuel with
  | zero =>
    intro ids e s tr s' h c hc
    cases ids with
    | nil => exact absurd hc (List.not_mem_nil c)
    | cons a as => exact absurd h (by simp [cancelChildrenTr])
  | succ f1 ih =>
    intro ids e s tr s' h c hc
    cases ids with
    | nil => exact absurd hc (List.not_mem_nil c)
    | cons a as =>
      simp only [cancelChildrenTr] at h
      split at h
      · exact absurd h (by simp)
      · rename_i tra s1 hda
        split at h
        · exact absurd h (by simp)
        · rename_i trs s2 hcs
          have hcall := ih as e s1 trs s2 hcs
          cases h
          cases List.mem_cons.mp hc with
          | inl heq =>
            subst heq
            exact List.mem_cons_self _ _
          | inr hmem =>
            exact List.mem_cons_of_mem _
              (List.mem_append.mpr (Or.inr (hcall c hmem)))

/-- **C9 (amended)** — The children are cancelled while the node's own
lock is held: in the trace of a completed `cancelCtx.cancel` on a live
node, the entry into every registered child's `cancel` appears strictly
between this node's `lockEv` and its `unlockEv` — the code recurses
into the children before releasing the lock, not after. -/
theorem C9_children_cancelled_under_lock {fuel : Nat} {id : NodeId} {rm : Bool}
    {e : GoError} {s s' : State} {tr : List Ev} {n : CNode}
    (hn : s.node? id = some n) (hne : n.err = none)
    (hrun : cancelCtxCancelTr fuel id rm (some e) s = .ok (tr, s')) :
    ∃ body post, tr = Ev.lockEv id :: body ++ Ev.unlockEv id :: post ∧
      ∀ c ∈ n.children.getD [], Ev.callEv c ∈ body := by
  cases fuel with
  | zero => exact absurd hrun (by simp [cancelCtxCancelTr])
  | succ f1 =>
    simp only [cancelCtxCancelTr] at hrun
    split at hrun
    · exact absurd hrun (by simp)
    · rename_i n0 hn0
      rw [hn] at hn0
      injection hn0 with hn0
      subst hn0
      split at hrun
      · rename_i hguard
        rw [hne] at hguard
        exact absurd hguard (by simp)
      · split at hrun
        · exact absurd hrun (by simp)
        · rename_i trb s2 hch
          split at hrun
          · exact absurd hrun (by simp)
          · rename_i tr2 s4 hif
            cases hrun
            exact ⟨trb, tr2, rfl, fun c hc =>
              cancelChildrenTr_calls f1 (n.children.getD []) e _ trb s2 hch c hc⟩

/-- The root of a two-node chain: one registered child. -/
def c9Node0 : CNode := CNode.mk Ctx.background .cancelK none (some [1]) none false 0

/-- A parent with one registered live child. -/
def c9In : State :=
  { nodes := [c9Node0, CNode.mk (Ctx.cancelRef 0) .cancelK none none none false 0],
    closed := [0], nextChan := 1, now := 0, goroutines := 0, watchers := [] }

/-- The trace of cancelling the parent. -/
def c9Tr : List Ev :=
  match cancelCtxCancelTr 9 0 false (some .canceled) c9In with
  | .ok (tr, _) => tr
  | .error _ => []

/-- The state after cancelling the parent. -/
def c9Out : State :=
  match cancelCtxCancelTr 9 0 false (some .canceled) c9In with
  | .ok (_, s) => s
  | .error _ => c9In

/-- **C9 counterexample** — cancelling a parent with one registered
child produces the event trace lock(0), call(1), lock(1), unlock(1),
unlock(0): the entry into the child's cancel occurs strictly before the
parent releases its own lock, refuting "each recursive child cancel
call happens only after the node has released its own exclusion
lock". -/
theorem C9_counterexample :
    cancelCtxCancelTr 9 0 false (some .canceled) c9In = .ok (c9Tr, c9Out) ∧
    c9Tr = [Ev.lockEv 0, Ev.callEv 1, Ev.lockEv 1, Ev.unlockEv 1, Ev.unlockEv 0] ∧
    c9Tr.indexOf (Ev.callEv 1) < c9Tr.indexOf (Ev.unlockEv 0) :=
  ⟨rfl, rfl, by decide⟩

/-- Witness for the amended C9 at the two-node chain: the child's cancel
entry lies between the parent's lock and unlock events. -/
theorem C9_children_cancelled_under_lock_witness :
    ∃ body post, c9Tr = Ev.lockEv 0 :: body ++ Ev.unlockEv 0 :: post ∧
      ∀ c ∈ c9Node0.children.getD [], Ev.callEv c ∈ body :=
  @C9_children_cancelled_under_lock 9 0 false .canceled c9In c9Out c9Tr c9Node0
    rfl rfl rfl

end Ctxt

namespace Ctxt

/-- A single live cancellable node. -/
def c1Node : CNode := CNode.mk Ctx.background .cancelK none none none false 0

/-- A one-node heap holding `c1Node`. -/
def c1In : State :=
  { nodes := [c1Node], closed := [0], nextChan := 1, now := 0,
    goroutines := 0, watchers := [] }

/-- The state after cancelling the node of `c1In`. -/
def c1Out : State :=
  match dispatchCancel 9 0 true (some .canceled) c1In with
  | .ok s => s
  | .error _ => c1In

/-- Witness for C1 at a concrete one-node heap. -/
theorem C1_cancel_idempotent_witness :
    (c1Node.err = none → Cancelled c1Out .canceled 0) ∧
    (∀ e0, c1Node.err = some e0 → ∃ n', c1Out.node? 0 = some n' ∧
      n'.err = some e0 ∧ n'.done = c1Node.done ∧ n'.children = c1Node.children) :=
  @C1_cancel_idempotent 9 0 true .canceled c1In c1Out c1Node rfl (by decide)
    (by decide) rfl

/-- A two-node heap: a live parent with one registered live child. -/
def c3In : State :=
  { nodes := [CNode.mk Ctx.background .cancelK none (some [1]) none false 0,
      CNode.mk (Ctx.cancelRef 0) .cancelK none none none false 0],
    closed := [0], nextChan := 1, now := 0, goroutines := 0, watchers := [] }

/-- Witness for C3 at a concrete two-node heap satisfying I1. -/
theorem C3_invariant_I1_witness :
    (∀ id rm e s', dispatchCancel 9 id rm (some e) c3In = .ok s' →
      Inv1 s' ∧ (∀ n, c3In.node? id = some n → n.err = none →
        Cancelled s' e id ∧ childrenOfD s' id = [])) ∧
    (∀ parent child s', propagateCancel 9 parent child c3In = .ok s' →
      Inv1 s' ∧ (∀ m x, x ∈ childrenOfD s' m →
        x ∈ childrenOfD c3In m ∨ (x = child ∧ errAt s' m = none))) :=
  @C3_invariant_I1 9 c3In (by decide) (by
    intro m hm
    exfalso
    have hz : errAt c3In m = none := by
      cases m with
      | zero => rfl
      | succ k =>
        cases k with
        | zero => rfl
        | succ j => rfl
    rw [hz] at hm
    exact absurd hm (by simp))

/-- A one-node heap holding a live `timerCtx` with deadline 5. -/
def c4In : State :=
  { nodes := [CNode.mk Ctx.background .timerK none none none false 5],
    closed := [0], nextChan := 1, now := 0, goroutines := 0, watchers := [] }

/-- Witness for C4: a parent with deadline 5 dominates a requested
deadline 10. -/
theorem C4_deadline_dominance_witness :
    WithDeadline 9 (some (Ctx.cancelRef 0)) 10 c4In =
      WithCancel 9 (some (Ctx.cancelRef 0)) c4In ∧
    (∀ ctx op s', WithCancel 9 (some (Ctx.cancelRef 0)) c4In = .ok (ctx, op, s') →
      ctx = .cancelRef c4In.nodes.length ∧ op = ⟨c4In.nodes.length, true⟩ ∧
      CtxDeadline 10 ctx s' = .ok (some 5) ∧
      ∃ n, s'.node? c4In.nodes.length = some n ∧ n.kind = .cancelK ∧
        n.timer = false) :=
  @C4_deadline_dominance 9 (Ctx.cancelRef 0) c4In 5 10 (by decide) rfl (by decide)

/-- A one-node heap holding a live plain `cancelCtx`. -/
def c5wIn : State :=
  { nodes := [CNode.mk Ctx.background .cancelK none none none false 0],
    closed := [0], nextChan := 1, now := 0, goroutines := 0, watchers := [] }

/-- `c5wIn` after materializing the parent's done channel. -/
def c5wS1 : State :=
  match CtxDone (Ctx.cancelRef 0) c5wIn with
  | .ok (_, s) => s
  | .error _ => c5wIn

/-- The state after `WithDeadline` in the past on the live parent. -/
def c5wOut : State :=
  match WithDeadline 9 (some (Ctx.cancelRef 0)) (-5) c5wIn with
  | .ok (_, _, s) => s
  | .error _ => c5wIn

/-- The concrete run behind the C5 witness. -/
theorem c5w_run : WithDeadline 9 (some (Ctx.cancelRef 0)) (-5) c5wIn =
    .ok (Ctx.cancelRef 1, CancelOp.mk 1 false, c5wOut) := rfl

/-- Witness for the amended C5 at a live parent and deadline -5. -/
theorem C5_immediate_expiry_witness :
    Ctx.cancelRef 1 = .cancelRef c5wIn.nodes.length ∧
    CancelOp.mk 1 false = ⟨c5wIn.nodes.length, false⟩ ∧
    CtxErr (Ctx.cancelRef 1) c5wOut = .ok (some .deadlineExceeded) ∧
    (∃ n, c5wOut.node? c5wIn.nodes.length = some n ∧
      n.err = some .deadlineExceeded ∧ n.timer = false ∧ n.kind = .timerK) ∧
    (∀ fuel2 s'', runCancelOp fuel2 (CancelOp.mk 1 false) c5wOut = .ok s'' →
      s'' = c5wOut) :=
  @C5_immediate_expiry 9 (Ctx.cancelRef 0) c5wIn c5wS1 (-5) none (some 1)
    (Ctx.cancelRef 1) (CancelOp.mk 1 false) c5wOut
    (by decide) (by decide) (by decide) (by decide) rfl
    (fun _ h => by cases h) rfl
    (Or.inr ⟨1, rfl, by decide⟩) (by decide) c5w_run

/-- A live unregistered node, child-to-be of the dead parent. -/
def c6Node1 : CNode := CNode.mk Ctx.background .cancelK none none none false 0

/-- A dead parent (err set, done closed) and a live unregistered node. -/
def c6In : State :=
  { nodes := [CNode.mk Ctx.background .cancelK (some 0) none
      (some .canceled) false 0, c6Node1],
    closed := [0], nextChan := 1, now := 0, goroutines := 0, watchers := [] }

/-- The state after propagating from the dead parent. -/
def c6Out : State :=
  match propagateCancel 9 (Ctx.cancelRef 0) 1 c6In with
  | .ok s => s
  | .error _ => c6In

/-- Witness for C6 at a concrete dead parent. -/
theorem C6_dead_parent_witness :
    Cancelled c6Out .canceled 1 ∧ (∀ m, 1 ∉ childrenOfD c6Out m) ∧
    c6Out.goroutines = c6In.goroutines ∧ c6Out.watchers = c6In.watchers :=
  @C6_dead_parent 9 (Ctx.cancelRef 0) 1 c6In c6In c6Out 0 .canceled c6Node1
    rfl (by decide) rfl rfl rfl (by decide)
    (by
      intro m hmem
      have hz : childrenOfD c6In m = [] := by
        cases m with
        | zero => rfl
        | succ k =>
          cases k with
          | zero => rfl
          | succ j => rfl
      rw [hz] at hmem
      exact absurd hmem (List.not_mem_nil 1))
    rfl

/-- Witness for C7: the inner of two bindings of the same key wins. -/
theorem C7_value_shadowing_witness :
    value 3 (Ctx.valueRef (Key.user 0) (some (GoVal.user 2))
      (Ctx.valueRef (Key.user 0) (some (GoVal.user 1)) Ctx.background))
      (Key.user 0) initState = .ok (some (GoVal.user 2)) :=
  C7_value_shadowing.1 Ctx.background (Key.user 0) (some (GoVal.user 1))
    (some (GoVal.user 2))
    (Ctx.valueRef (Key.user 0) (some (GoVal.user 1)) Ctx.background)
    (Ctx.valueRef (Key.user 0) (some (GoVal.user 2))
      (Ctx.valueRef (Key.user 0) (some (GoVal.user 1)) Ctx.background))
    initState 2 rfl rfl

/-- A live `timerCtx` with an armed timer and deadline 7. -/
def c10Node : CNode := CNode.mk Ctx.background .timerK none none none true 7

/-- A one-node heap holding `c10Node`. -/
def c10In : State :=
  { nodes := [c10Node], closed := [0], nextChan := 1, now := 0,
    goroutines := 0, watchers := [] }

/-- The state after cancelling the timer node. -/
def c10Out : State :=
  match dispatchCancel 9 0 true (some .canceled) c10In with
  | .ok s => s
  | .error _ => c10In

/-- Witness for C10: cancelling the concrete timer node clears its timer
and keeps its stored deadline. -/
theorem C10_timer_deadline_stable_witness :
    ∃ n', c10Out.node? 0 = some n' ∧ n'.kind = .timerK ∧
      n'.deadline = c10Node.deadline ∧ n'.timer = false :=
  C10_timer_deadline_stable.2.2 9 0 true .canceled c10In c10Out c10Node
    (by decide) rfl rfl rfl

end Ctxt
